import Mathlib

/-!
# Verification of the keymerge structural merge engine

This file gives a shallow embedding of the keymerge library (`merge.go`,
`typed.go`): a deterministic, format-agnostic structural merge of
dynamically-typed documents (maps, lists, scalars), with primary-key based
list merging, composite keys, duplicate handling, deletion markers and
scalar-list modes.  The Go functions are translated one-to-one:

* `Value` models the dynamic document value (`map[string]any`, `[]any`,
  scalars, `nil`).  Go maps are represented as association lists whose
  order models the (unspecified) iteration order of a Go map.
* `mergeValues`, `mergeMaps`, `mergeSlices`, `deduplicateList`,
  `stripDeleteMarker`, `getPrimaryKey`, `toMapKey`, `isComparable`,
  `isMarkedForDeletion` follow the Go sources of the same names.
* The merger's mutable `path` / `index` state (`push`/`pop`) is threaded
  explicitly: each merging function takes the path before the call and
  returns the path after it, exactly mirroring the in-place mutation.
* Go runtime panics from hashing an unhashable map key are modelled as a
  distinguished error `MergeErr.panicHash` (distinct from returned errors).
* Recursion is indexed by a fuel parameter (`MergeErr.fuelOut` when
  exhausted); one unit of fuel is consumed per `mergeValues` call, so any
  fuel at least the structural size of the inputs is sufficient.
-/

namespace Keymerge

/-- Dynamic document value: Go `any` holding `nil`, scalars,
`map[string]any` (as an association list in iteration order) or `[]any`. -/
inductive Value where
  | null : Value
  | str : String → Value
  | int : Int → Value
  | bool : Bool → Value
  | map : List (String × Value) → Value
  | list : List Value → Value

mutual

/-- Decidable equality on document values (the derive handler does not
support this nested inductive). -/
def decEqV : (a b : Value) → Decidable (a = b)
  | .null, .null => isTrue rfl
  | .str a, .str b =>
      match decEq a b with
      | isTrue h => isTrue (by rw [h])
      | isFalse h => isFalse (by intro he; cases he; exact h rfl)
  | .int a, .int b =>
      match decEq a b with
      | isTrue h => isTrue (by rw [h])
      | isFalse h => isFalse (by intro he; cases he; exact h rfl)
  | .bool a, .bool b =>
      match decEq a b with
      | isTrue h => isTrue (by rw [h])
      | isFalse h => isFalse (by intro he; cases he; exact h rfl)
  | .map a, .map b =>
      match decEqFields a b with
      | isTrue h => isTrue (by rw [h])
      | isFalse h => isFalse (by intro he; cases he; exact h rfl)
  | .list a, .list b =>
      match decEqItems a b with
      | isTrue h => isTrue (by rw [h])
      | isFalse h => isFalse (by intro he; cases he; exact h rfl)
  | .null, .str _ => isFalse (by intro h; cases h)
  | .null, .int _ => isFalse (by intro h; cases h)
  | .null, .bool _ => isFalse (by intro h; cases h)
  | .null, .map _ => isFalse (by intro h; cases h)
  | .null, .list _ => isFalse (by intro h; cases h)
  | .str _, .null => isFalse (by intro h; cases h)
  | .str _, .int _ => isFalse (by intro h; cases h)
  | .str _, .bool _ => isFalse (by intro h; cases h)
  | .str _, .map _ => isFalse (by intro h; cases h)
  | .str _, .list _ => isFalse (by intro h; cases h)
  | .int _, .null => isFalse (by intro h; cases h)
  | .int _, .str _ => isFalse (by intro h; cases h)
  | .int _, .bool _ => isFalse (by intro h; cases h)
  | .int _, .map _ => isFalse (by intro h; cases h)
  | .int _, .list _ => isFalse (by intro h; cases h)
  | .bool _, .null => isFalse (by intro h; cases h)
  | .bool _, .str _ => isFalse (by intro h; cases h)
  | .bool _, .int _ => isFalse (by intro h; cases h)
  | .bool _, .map _ => isFalse (by intro h; cases h)
  | .bool _, .list _ => isFalse (by intro h; cases h)
  | .map _, .null => isFalse (by intro h; cases h)
  | .map _, .str _ => isFalse (by intro h; cases h)
  | .map _, .int _ => isFalse (by intro h; cases h)
  | .map _, .bool _ => isFalse (by intro h; cases h)
  | .map _, .list _ => isFalse (by intro h; cases h)
  | .list _, .null => isFalse (by intro h; cases h)
  | .list _, .str _ => isFalse (by intro h; cases h)
  | .list _, .int _ => isFalse (by intro h; cases h)
  | .list _, .bool _ => isFalse (by intro h; cases h)
  | .list _, .map _ => isFalse (by intro h; cases h)

/-- Decidable equality on map entry lists. -/
def decEqFields : (a b : List (String × Value)) → Decidable (a = b)
  | [], [] => isTrue rfl
  | [], _ :: _ => isFalse (by intro h; cases h)
  | _ :: _, [] => isFalse (by intro h; cases h)
  | (k, v) :: r, (k2, v2) :: r2 =>
      match decEq k k2, decEqV v v2, decEqFields r r2 with
      | isTrue h1, isTrue h2, isTrue h3 => isTrue (by rw [h1, h2, h3])
      | isFalse h1, _, _ => isFalse (by intro he; cases he; exact h1 rfl)
      | _, isFalse h2, _ => isFalse (by intro he; cases he; exact h2 rfl)
      | _, _, isFalse h3 => isFalse (by intro he; cases he; exact h3 rfl)

/-- Decidable equality on item lists. -/
def decEqItems : (a b : List Value) → Decidable (a = b)
  | [], [] => isTrue rfl
  | [], _ :: _ => isFalse (by intro h; cases h)
  | _ :: _, [] => isFalse (by intro h; cases h)
  | v :: r, v2 :: r2 =>
      match decEqV v v2, decEqItems r r2 with
      | isTrue h2, isTrue h3 => isTrue (by rw [h2, h3])
      | isFalse h2, _ => isFalse (by intro he; cases he; exact h2 rfl)
      | _, isFalse h3 => isFalse (by intro he; cases he; exact h3 rfl)

end

instance : DecidableEq Value := decEqV

/-- Go `ScalarListMode`. -/
inductive ScalarListMode where
  | concat | dedup | replace
deriving DecidableEq, Repr

/-- Go `ObjectListMode`. -/
inductive ObjectListMode where
  | unique | consolidate
deriving DecidableEq, Repr

/-- Go `fieldMetadata` (typed-tag metadata tree): composite primary keys,
per-field mode overrides and children keyed by serialized field name. -/
inductive Meta where
  | node : List String → Option ScalarListMode → Option ObjectListMode →
      List (String × Meta) → Meta

/-- `fieldMetadata.primaryKeys`. -/
def Meta.primaryKeys : Meta → List String
  | .node pks _ _ _ => pks

/-- `fieldMetadata.scalarListMode`. -/
def Meta.scalarMode : Meta → Option ScalarListMode
  | .node _ m _ _ => m

/-- `fieldMetadata.objectListMode`. -/
def Meta.objectMode : Meta → Option ObjectListMode
  | .node _ _ m _ => m

/-- `fieldMetadata.children`. -/
def Meta.children : Meta → List (String × Meta)
  | .node _ _ _ cs => cs

/-- Merger configuration: Go `Options` plus the root `fieldMetadata`
(`nil` for an `UntypedMerger`, built from struct tags for `Merger[T]`). -/
structure Cfg where
  primaryKeyNames : List String
  deleteMarkerKey : String
  scalarListMode : ScalarListMode
  objectListMode : ObjectListMode
  rootMeta : Option Meta

/-- Go `pathSegment`: a path component plus cached metadata. -/
structure Seg where
  name : String
  meta : Option Meta

/-- The merger's path stack, top segment first (Go appends to the end of
`m.path`; we cons at the head). -/
abbrev Path := List Seg

/-- Association-list lookup, modelling Go `m[k]` on `map[string]any`
(well-formed maps bind each key once). -/
def lookupA : List (String × Value) → String → Option Value
  | [], _ => none
  | (k, v) :: rest, key => if k = key then some v else lookupA rest key

/-- Go `m[k] = v` when `k` is already bound: replace in place. -/
def updateA : List (String × Value) → String → Value → List (String × Value)
  | [], _, _ => []
  | (k, v) :: rest, key, nv =>
      if k = key then (k, nv) :: rest else (k, v) :: updateA rest key nv

/-- Go `delete(m, k)`. -/
def eraseA : List (String × Value) → String → List (String × Value)
  | [], _ => []
  | (k, v) :: rest, key =>
      if k = key then eraseA rest key else (k, v) :: eraseA rest key

/-- Go `isNumeric`: every character a decimal digit, nonempty. -/
def isNumeric (s : String) : Bool :=
  !s.isEmpty && s.toList.all fun c => decide ('0' ≤ c) && decide (c ≤ '9')

/-- Go `isComparable` (`reflect.TypeOf(value).Comparable()`): maps and
slices are not comparable; `nil` and scalars are. -/
def isComparable : Value → Bool
  | .map _ => false
  | .list _ => false
  | _ => true

/-- Insertion step of the key sort used when printing a map
(Go `fmt` prints map entries in sorted key order). -/
def insSorted (e : String × String) : List (String × String) → List (String × String)
  | [] => [e]
  | f :: rest => if e.1 ≤ f.1 then e :: f :: rest else f :: insSorted e rest

/-- Key-sort of rendered map entries for `sprintValue`. -/
def sortByKey (l : List (String × String)) : List (String × String) :=
  l.foldr insSorted []

/-- Space-separated join (Go `fmt` separates operands with spaces). -/
def joinSpace : List String → String
  | [] => ""
  | [s] => s
  | s :: rest => s ++ " " ++ joinSpace rest

mutual

/-- Go `fmt.Sprintf("%v", value)` on a dynamic document value. -/
def sprintValue : Value → String
  | .null => "<nil>"
  | .str s => s
  | .int n => toString n
  | .bool b => toString b
  | .map entries =>
      "map[" ++
        joinSpace ((sortByKey (renderEntries entries)).map fun e =>
          e.1 ++ ":" ++ e.2) ++ "]"
  | .list items => "[" ++ joinSpace (renderItems items) ++ "]"

/-- Render each map entry to `(key, printed value)`. -/
def renderEntries : List (String × Value) → List (String × String)
  | [] => []
  | (k, v) :: rest => (k, sprintValue v) :: renderEntries rest

/-- Render each list item to its printed form. -/
def renderItems : List Value → List String
  | [] => []
  | v :: rest => sprintValue v :: renderItems rest

end

/-- `sprintValue` of a `[]any` of key component values (Go
`fmt.Sprint(ck.values)`). -/
def sprintVals (vs : List Value) : String :=
  "[" ++ joinSpace (renderItems vs) ++ "]"

/-- A primary key extracted from a list item: either a single field value
(used directly) or a composite key (Go `*compositeKey`). -/
inductive PKey where
  | single : Value → PKey
  | composite : List Value → PKey
deriving DecidableEq

/-- Go `keyString`: format a primary key for error messages. -/
def keyString : PKey → String
  | .single v => sprintValue v
  | .composite vs => sprintVals vs

/-- Go `toMapKey`: single keys index directly; composite keys index by
their `fmt.Sprint` string rendering. -/
def toMapKey : PKey → Value
  | .single v => v
  | .composite vs => .str (sprintVals vs)

/-- Go `isKeyComparable`. -/
def isKeyComparable : PKey → Bool
  | .single v => isComparable v
  | .composite vs => vs.all isComparable

/-- First primary-key name in `names` bound to a non-nil value in `mp`
(Go `getPrimaryKey` fallback over `opts.PrimaryKeyNames`). -/
def firstFlatKey (mp : List (String × Value)) : List String → Option PKey
  | [] => none
  | name :: rest =>
      match lookupA mp name with
      | some v => if v = .null then firstFlatKey mp rest else some (.single v)
      | none => firstFlatKey mp rest

/-- All composite key component values, requiring each field present and
non-nil (Go `getPrimaryKey` metadata branch). -/
def compositeVals (mp : List (String × Value)) : List String → Option (List Value)
  | [] => some []
  | name :: rest =>
      match lookupA mp name with
      | some v =>
          if v = .null then none
          else match compositeVals mp rest with
            | some vs => some (v :: vs)
            | none => none
      | none => none

/-- Go `UntypedMerger.getPrimaryKey`: metadata-declared (composite) keys
take priority, requiring all components; otherwise the first matching
name from `PrimaryKeyNames` is used as a single-field key. -/
def getPrimaryKey (cfg : Cfg) (meta : Option Meta) : Value → Option PKey
  | .map mp =>
      match meta with
      | some m =>
          match m.primaryKeys with
          | [] => firstFlatKey mp cfg.primaryKeyNames
          | [k] =>
              match lookupA mp k with
              | some v => if v = .null then none else some (.single v)
              | none => none
          | ks =>
              match compositeVals mp ks with
              | some vs => some (.composite vs)
              | none => none
      | none => firstFlatKey mp cfg.primaryKeyNames
  | _ => none

/-- Go `UntypedMerger.isMarkedForDeletion`: map value whose configured
delete-marker field is boolean `true`. -/
def isMarkedForDeletion (cfg : Cfg) : Value → Bool
  | .map mp =>
      if cfg.deleteMarkerKey = "" then false
      else match lookupA mp cfg.deleteMarkerKey with
        | some (.bool b) => b
        | _ => false
  | _ => false

/-- Go `UntypedMerger.push`: append a path segment, caching metadata
(numeric segments inherit the parent's metadata; field names navigate to
child metadata). -/
def pushSeg (cfg : Cfg) (p : Path) (name : String) : Path :=
  match cfg.rootMeta with
  | none => ⟨name, none⟩ :: p
  | some root =>
      let parentMeta : Option Meta :=
        match p with
        | [] => some root
        | s :: _ => s.meta
      let segMeta : Option Meta :=
        if isNumeric name then parentMeta
        else match parentMeta with
          | some pm =>
              (pm.children.find? fun c => c.1 == name).map (·.2)
          | none => none
      ⟨name, segMeta⟩ :: p

/-- Go `UntypedMerger.pop`: drop the top path segment.  (Go panics when
the path is empty; the merge functions below only pop after a push.) -/
def popSeg (p : Path) : Path := p.tail

/-- Go `UntypedMerger.pathNames`: path names in root-to-leaf order. -/
def pathNames (p : Path) : List String := (p.map Seg.name).reverse

/-- Go `UntypedMerger.getCurrentMetadata`: metadata cached on top path
segment, `nil` for an empty path. -/
def currentMeta (p : Path) : Option Meta :=
  match p with
  | [] => none
  | s :: _ => s.meta

/-- Merge errors: Go `DuplicatePrimaryKeyError` and
`NonComparablePrimaryKeyError` (structured, with stringified key,
positions, path and document index), plus two embedding-level outcomes:
`panicHash` models the Go runtime panic raised by hashing an unhashable
map key, and `fuelOut` marks fuel exhaustion of the embedding (never
reached for fuel at least the size of the inputs). -/
inductive MergeErr where
  | dupKey (key : String) (pos1 pos2 : Nat) (path : List String) (docIndex : Nat)
  | nonComparableKey (key : String) (pos : Nat) (path : List String) (docIndex : Nat)
  | panicHash
  | fuelOut
deriving DecidableEq, Repr

/-- Result of a merging function: outcome plus the path state left behind
(Go mutates `m.path` in place, also on early error returns). -/
abbrev MRes (α : Type) := Except MergeErr α × Path

/-- Go map lookup `idx[k]` on `map[any]int`: hashing a non-comparable key
panics at runtime. -/
def idxFind (idx : List (Value × Nat)) (k : Value) : Except MergeErr (Option Nat) :=
  if isComparable k then .ok ((idx.find? fun e => e.1 == k).map (·.2))
  else .error .panicHash

/-- Go map store `idx[k] = i` (hashing panics on non-comparable keys). -/
def idxPut (idx : List (Value × Nat)) (k : Value) (i : Nat) :
    Except MergeErr (List (Value × Nat)) :=
  if isComparable k then
    .ok (if (idx.find? fun e => e.1 == k).isSome
      then idx.map fun e => if e.1 = k then (e.1, i) else e
      else idx ++ [(k, i)])
  else .error .panicHash

/-- Go `delete(idx, k)` (hashing panics on non-comparable keys). -/
def idxErase (idx : List (Value × Nat)) (k : Value) :
    Except MergeErr (List (Value × Nat)) :=
  if isComparable k then .ok (idx.filter fun e => !(e.1 == k))
  else .error .panicHash

/-- Go `deduplicateList`: concatenate base and overlay; scalars are kept
on first occurrence only (tracked in the `seen` set), maps and slices are
always kept. -/
def dedupGo (seen : List Value) (res : List Value) : List Value → List Value
  | [] => res
  | item :: rest =>
      if isComparable item then
        if item ∈ seen then dedupGo seen res rest
        else dedupGo (seen ++ [item]) (res ++ [item]) rest
      else dedupGo seen (res ++ [item]) rest

/-- Go `deduplicateList base overlay`. -/
def deduplicateList (base overlay : List Value) : List Value :=
  dedupGo [] [] (base ++ overlay)

/-- The duplicate pre-scan of the overlay in unique mode (`mergeSlices`
lines 949-992): skip items marked for deletion, then fail on the first
non-comparable or already-seen key. -/
def overlayPrescan (cfg : Cfg) (di : Nat) :
    Path → Nat → List (Value × Nat) → List Value → Except MergeErr Unit × Path
  | p, _, _, [] => (.ok (), p)
  | p, i, keys, item :: rest =>
      let p1 := pushSeg cfg p (toString i)
      if isMarkedForDeletion cfg item then
        overlayPrescan cfg di (popSeg p1) (i + 1) keys rest
      else
        match getPrimaryKey cfg (currentMeta p1) item with
        | none => overlayPrescan cfg di (popSeg p1) (i + 1) keys rest
        | some key =>
            if isKeyComparable key then
              let mk := toMapKey key
              match idxFind keys mk with
              | .error e => (.error e, p1)
              | .ok (some firstIdx) =>
                  (.error (.dupKey (keyString key) firstIdx i (pathNames p1) di),
                    popSeg p1)
              | .ok none =>
                  match idxPut keys mk i with
                  | .error e => (.error e, p1)
                  | .ok keys2 => overlayPrescan cfg di (popSeg p1) (i + 1) keys2 rest
            else
              (.error (.nonComparableKey (keyString key) i (pathNames p1) di),
                popSeg p1)

/-- Type of the recursive merge entry point as seen by the loop bodies:
path in, base and overlay values, outcome and path out. -/
abbrev MergeFn := Path → Value → Value → MRes Value

/-- Go `UntypedMerger.mergeMaps` overlay loop: `res` starts as a copy of
the base map; each overlay key is pushed, then either deletes (marker),
deep-merges (existing key, through the recursive merge `mv`) or inserts.
Faithful to the source, the deletion branch and the nested-error branch
return without popping. -/
def mergeMapsGo (mv : MergeFn) (cfg : Cfg) (p : Path)
    (res : List (String × Value)) :
    List (String × Value) → MRes (List (String × Value))
  | [] => (.ok res, p)
  | (k, v) :: rest =>
      let p1 := pushSeg cfg p k
      if isMarkedForDeletion cfg v then
        mergeMapsGo mv cfg p1 (eraseA res k) rest
      else
        match lookupA res k with
        | some baseVal =>
            match mv p1 baseVal v with
            | (.error e, p2) => (.error e, p2)
            | (.ok merged, p2) =>
                mergeMapsGo mv cfg (popSeg p2) (updateA res k merged) rest
        | none =>
            mergeMapsGo mv cfg (popSeg p1) (res ++ [(k, v)]) rest

/-- Go `mergeSlices` base-indexing loop: append each base item, indexing
comparable keys by position; duplicates fail (unique) or consolidate by
merging into the first occurrence. -/
def slicesBase (mv : MergeFn) (cfg : Cfg) (di : Nat) (om : ObjectListMode)
    (p : Path) (i : Nat) (res : List Value) (idx : List (Value × Nat)) :
    List Value → Except MergeErr (List Value × List (Value × Nat)) × Path
  | [] => (.ok (res, idx), p)
  | item :: rest =>
      let p1 := pushSeg cfg p (toString i)
      match getPrimaryKey cfg (currentMeta p1) item with
      | none => slicesBase mv cfg di om (popSeg p1) (i + 1) (res ++ [item]) idx rest
      | some key =>
          if isKeyComparable key then
            let mk := toMapKey key
            match idxFind idx mk with
            | .error e => (.error e, p1)
            | .ok none =>
                match idxPut idx mk res.length with
                | .error e => (.error e, p1)
                | .ok idx2 =>
                    slicesBase mv cfg di om (popSeg p1) (i + 1) (res ++ [item]) idx2 rest
            | .ok (some existingIdx) =>
                match om with
                | .unique =>
                    (.error (.dupKey (keyString key) existingIdx i (pathNames p1) di),
                      popSeg p1)
                | .consolidate =>
                    let p2 := pushSeg cfg (popSeg p1) (toString existingIdx)
                    match mv p2 (res.getD existingIdx .null) item with
                    | (.error e, p3) => (.error e, popSeg p3)
                    | (.ok merged, p3) =>
                        slicesBase mv cfg di om (popSeg p3) (i + 1)
                          (res.set existingIdx merged) idx rest
          else
            (.error (.nonComparableKey (keyString key) i (pathNames p1) di),
              popSeg p1)

/-- Go `mergeSlices` overlay loop: deletion markers tombstone the matched
position (note the unguarded index lookup, which hashes the key), keyless
items append, matched keys deep-merge at the original position, new keys
append and index. -/
def slicesOverlay (mv : MergeFn) (cfg : Cfg) (di : Nat) (om : ObjectListMode)
    (p : Path) (i : Nat) (res : List Value) (idx : List (Value × Nat)) :
    List Value → Except MergeErr (List Value) × Path
  | [] => (.ok res, p)
  | item :: rest =>
      let p1 := pushSeg cfg p (toString i)
      if isMarkedForDeletion cfg item then
        match getPrimaryKey cfg (currentMeta p1) item with
        | none => slicesOverlay mv cfg di om (popSeg p1) (i + 1) res idx rest
        | some key =>
            let mk := toMapKey key
            match idxFind idx mk with
            | .error e => (.error e, p1)
            | .ok none => slicesOverlay mv cfg di om (popSeg p1) (i + 1) res idx rest
            | .ok (some j) =>
                match idxErase idx mk with
                | .error e => (.error e, p1)
                | .ok idx2 =>
                    slicesOverlay mv cfg di om (popSeg p1) (i + 1)
                      (res.set j .null) idx2 rest
      else
        match getPrimaryKey cfg (currentMeta p1) item with
        | none => slicesOverlay mv cfg di om (popSeg p1) (i + 1) (res ++ [item]) idx rest
        | some key =>
            if om ≠ .unique ∧ ¬isKeyComparable key then
              (.error (.nonComparableKey (keyString key) i (pathNames p1) di),
                popSeg p1)
            else
              let mk := toMapKey key
              match idxFind idx mk with
              | .error e => (.error e, p1)
              | .ok (some j) =>
                  let p2 := pushSeg cfg (popSeg p1) (toString j)
                  match mv p2 (res.getD j .null) item with
                  | (.error e, p3) => (.error e, popSeg p3)
                  | (.ok merged, p3) =>
                      slicesOverlay mv cfg di om (popSeg p3) (i + 1)
                        (res.set j merged) idx rest
              | .ok none =>
                  match idxPut idx mk res.length with
                  | .error e => (.error e, p1)
                  | .ok idx2 =>
                      slicesOverlay mv cfg di om (popSeg p1) (i + 1)
                        (res ++ [item]) idx2 rest

/-- Go `UntypedMerger.mergeSlices` body (with the recursive merge
abstracted as `mv`): empty overlay keeps base; keyless overlays dispatch
on the scalar-list mode; keyed overlays run the base-indexing loop, the
unique-mode duplicate pre-scan, the overlay loop, and the final nil
filter (active when a delete marker is configured or in consolidate
mode). -/
def slicesCore (mv : MergeFn) (cfg : Cfg) (di : Nat) (p : Path)
    (base overlay : List Value) : MRes (List Value) :=
  if overlay.isEmpty then (.ok base, p)
  else
    let hasKeys := overlay.any fun it => (getPrimaryKey cfg (currentMeta p) it).isSome
    if hasKeys then
      let om := match (currentMeta p).bind Meta.objectMode with
        | some m => m
        | none => cfg.objectListMode
      match slicesBase mv cfg di om p 0 [] [] base with
      | (.error e, p2) => (.error e, p2)
      | (.ok (res, idx), p2) =>
          let afterScan : Except MergeErr Unit × Path :=
            match om with
            | .unique => overlayPrescan cfg di p2 0 [] overlay
            | .consolidate => (.ok (), p2)
          match afterScan with
          | (.error e, p3) => (.error e, p3)
          | (.ok _, p3) =>
              match slicesOverlay mv cfg di om p3 0 res idx overlay with
              | (.error e, p4) => (.error e, p4)
              | (.ok res2, p4) =>
                  if cfg.deleteMarkerKey ≠ "" ∨ om = .consolidate then
                    (.ok (res2.filter fun item => !(item == .null)), p4)
                  else
                    (.ok res2, p4)
    else
      let sm := match (currentMeta p).bind Meta.scalarMode with
        | some m => m
        | none => cfg.scalarListMode
      match sm with
      | .replace => (.ok overlay, p)
      | .dedup => (.ok (deduplicateList base overlay), p)
      | .concat => (.ok (base ++ overlay), p)

/-- Go `UntypedMerger.mergeValues`: nil overlay keeps base, nil base takes
overlay, maps deep-merge, lists list-merge, anything else is replaced by
the overlay.  One unit of fuel per recursive level (any fuel at least the
nesting depth of the inputs is sufficient). -/
def mergeValues : (fuel : Nat) → (cfg : Cfg) → (di : Nat) → MergeFn
  | 0, _, _, p, _, _ => (.error .fuelOut, p)
  | f + 1, cfg, di, p, base, overlay =>
      if overlay = .null then (.ok base, p)
      else if base = .null then (.ok overlay, p)
      else
        match base, overlay with
        | .map bm, .map om =>
            match mergeMapsGo (mergeValues f cfg di) cfg p bm om with
            | (.ok res, p2) => (.ok (.map res), p2)
            | (.error e, p2) => (.error e, p2)
        | .list bl, .list ol =>
            match slicesCore (mergeValues f cfg di) cfg di p bl ol with
            | (.ok res, p2) => (.ok (.list res), p2)
            | (.error e, p2) => (.error e, p2)
        | _, _ => (.ok overlay, p)

/-- Go `UntypedMerger.mergeSlices` entry point at a given fuel. -/
def mergeSlices (fuel : Nat) (cfg : Cfg) (di : Nat) (p : Path)
    (base overlay : List Value) : MRes (List Value) :=
  slicesCore (mergeValues fuel cfg di) cfg di p base overlay

/-- Go `UntypedMerger.mergeMaps` entry point at a given fuel. -/
def mergeMaps (fuel : Nat) (cfg : Cfg) (di : Nat) (p : Path)
    (base overlay : List (String × Value)) : MRes (List (String × Value)) :=
  mergeMapsGo (mergeValues fuel cfg di) cfg p base overlay

mutual

/-- Go `UntypedMerger.stripDeleteMarker`: recursively drop every binding
of the configured delete-marker key; disabled marker returns the value
unchanged. -/
def stripDeleteMarker (cfg : Cfg) (v : Value) : Value :=
  if cfg.deleteMarkerKey = "" then v
  else
    match v with
    | .map es => .map (stripFields cfg es)
    | .list xs => .list (stripItems cfg xs)
    | other => other

/-- Map case of `stripDeleteMarker`: skip the marker key, strip values. -/
def stripFields (cfg : Cfg) : List (String × Value) → List (String × Value)
  | [] => []
  | (k, v) :: rest =>
      if k = cfg.deleteMarkerKey then stripFields cfg rest
      else (k, stripDeleteMarker cfg v) :: stripFields cfg rest

/-- List case of `stripDeleteMarker`. -/
def stripItems (cfg : Cfg) : List Value → List Value
  | [] => []
  | v :: rest => stripDeleteMarker cfg v :: stripItems cfg rest

end

/-- The document fold of Go `UntypedMerger.MergeUnstructured`: for each
document, reset the path and set the document index, then merge it into
the accumulated result, aborting on the first error. -/
def mergeDocs (fuel : Nat) (cfg : Cfg) : Nat → Value → List Value → Except MergeErr Value
  | _, res, [] => .ok res
  | i, res, doc :: rest =>
      match mergeValues fuel cfg i [] res doc with
      | (.ok res2, _) => mergeDocs fuel cfg (i + 1) res2 rest
      | (.error e, _) => .error e

/-- Go `UntypedMerger.MergeUnstructured`: fold the documents
left-to-right starting from nil, then strip delete markers. -/
def mergeUnstructured (fuel : Nat) (cfg : Cfg) (docs : List Value) :
    Except MergeErr Value :=
  match mergeDocs fuel cfg 0 .null docs with
  | .error e => .error e
  | .ok res => .ok (stripDeleteMarker cfg res)

/-- Errors of the byte-oriented wrapper `UntypedMerger.Merge`: a Go
`MarshalError` (wrapped codec failure with document index), a merge error
passed through, or an error returned raw (unwrapped). -/
inductive TopErr where
  | marshalErr (msg : String) (docIndex : Nat)
  | mergeErr (e : MergeErr)
  | rawErr (msg : String)
deriving DecidableEq, Repr

/-- The unmarshal loop of Go `UntypedMerger.Merge`: parse every document,
wrapping the first failure in a `MarshalError` carrying its index. -/
def unmarshalAll (unmarshal : String → Except String Value) :
    Nat → List String → Except TopErr (List Value)
  | _, [] => .ok []
  | i, d :: rest =>
      match unmarshal d with
      | .error e => .error (.marshalErr e i)
      | .ok v =>
          match unmarshalAll unmarshal (i + 1) rest with
          | .ok vs => .ok (v :: vs)
          | .error e => .error e

/-- Go `UntypedMerger.Merge` (byte documents, with codec functions
modelled as `String`-based unmarshal/marshal): empty input yields empty
output; all documents are parsed, merged, and the result marshalled.
Faithful to the source, the final marshal's error is returned as-is, not
wrapped in a `MarshalError`. -/
def mergeBytes (fuel : Nat) (cfg : Cfg)
    (unmarshal : String → Except String Value)
    (marshal : Value → Except String String)
    (docs : List String) : Except TopErr String :=
  if docs.isEmpty then .ok ""
  else
    match unmarshalAll unmarshal 0 docs with
    | .error e => .error e
    | .ok parsed =>
        match mergeUnstructured fuel cfg parsed with
        | .error e => .error (.mergeErr e)
        | .ok res =>
            match marshal res with
            | .error e => .error (.rawErr e)
            | .ok out => .ok out

/-- Whether a wrapper result is a wrapped codec failure (`MarshalError`). -/
def isWrappedCodecFailure : Except TopErr String → Bool
  | .error (.marshalErr _ _) => true
  | _ => false

mutual

/-- Extensional document equality: maps compare as unordered key-value
collections (any Go map iteration order represents the same map), lists
and scalars compare rigidly. -/
def valEquiv : Value → Value → Bool
  | .map a, .map b => fieldsEquiv a b && fieldsKeysIn b a
  | .list a, .list b => itemsEquiv a b
  | a, b => a == b

/-- Every binding of `a` is matched by an equivalent binding in `b`. -/
def fieldsEquiv : List (String × Value) → List (String × Value) → Bool
  | [], _ => true
  | (k, v) :: rest, b =>
      (match lookupA b k with
       | some w => valEquiv v w
       | none => false) && fieldsEquiv rest b

/-- Every key of `a` is bound in `b`. -/
def fieldsKeysIn (a b : List (String × Value)) : Bool :=
  a.all fun e => (lookupA b e.1).isSome

/-- Pointwise equivalence of item lists. -/
def itemsEquiv : List Value → List Value → Bool
  | [], [] => true
  | v :: r, w :: s => valEquiv v w && itemsEquiv r s
  | _, _ => false

end

mutual

/-- Whether a document contains no lists anywhere (scalars and maps only). -/
def noLists : Value → Bool
  | .map es => noListsFields es
  | .list _ => false
  | _ => true

/-- Map-entry case of `noLists`. -/
def noListsFields : List (String × Value) → Bool
  | [] => true
  | (_, v) :: rest => noLists v && noListsFields rest

end

mutual

/-- Well-formedness of a document as produced by a Go unmarshaller: every
map binds each key at most once, recursively. -/
def wfKeys : Value → Bool
  | .map es => wfFields es
  | .list xs => wfItems xs
  | _ => true

/-- Map case of `wfKeys`: the head key is unbound in the tail. -/
def wfFields : List (String × Value) → Bool
  | [] => true
  | (k, v) :: rest => (lookupA rest k).isNone && wfKeys v && wfFields rest

/-- List case of `wfKeys`. -/
def wfItems : List Value → Bool
  | [] => true
  | v :: rest => wfKeys v && wfItems rest

end

/-- The success part of a merging-function result, forgetting the error
payload and the final path state. -/
def okPart {α : Type} (r : Except MergeErr α × Path) : Option α := r.1.toOption

section ConcreteInputs

/-- Untyped configuration with flat primary keys `name`, `id` and all
defaults (concat, unique, no delete marker). -/
def cfgFlat : Cfg := ⟨["name", "id"], "", .concat, .unique, none⟩

/-- Untyped configuration with primary key `id` and delete marker `del`. -/
def cfgDelete : Cfg := ⟨["id"], "del", .concat, .unique, none⟩

/-- Consolidate-mode variant of `cfgDelete`. -/
def cfgDeleteCons : Cfg := ⟨["id"], "del", .concat, .consolidate, none⟩

/-- Untyped configuration with dedup scalar-list mode and no keys. -/
def cfgDedupMode : Cfg := ⟨[], "", .dedup, .unique, none⟩

/-- Metadata of the item type at list field `l`: composite primary key
over fields `r` and `n` (Go struct tags `km:"primary"` on both). -/
def metaComposite : Meta := .node [] none none [("l", .node ["r", "n"] none none [])]

/-- Typed-merger configuration with the composite declaration above. -/
def cfgComposite : Cfg := ⟨[], "", .concat, .unique, some metaComposite⟩

/-- A stub unmarshal function that fails on the document "bad". -/
def unmarshalStub : String → Except String Value :=
  fun s => if s = "bad" then .error "nope" else .ok .null

/-- A stub marshal function that always succeeds. -/
def marshalStub : Value → Except String String := fun _ => .ok "out"

end ConcreteInputs

/-- A duplicate witness for the unique-mode base-indexing loop: some item
of `rem` carries a primary key whose map key is already bound in `idx`,
or two distinct items of `rem` carry equal map keys (all keys read with
the flat, metadata-free strategy). -/
def DupWitness (cfg : Cfg) (idx : List (Value × Nat)) (rem : List Value) : Prop :=
  (∃ j key, j < rem.length ∧
      getPrimaryKey cfg none (rem.getD j .null) = some key ∧
      ∃ pr, pr ∈ idx ∧ pr.1 = toMapKey key) ∨
  (∃ j1 j2 k1 k2, j1 < j2 ∧ j2 < rem.length ∧
      getPrimaryKey cfg none (rem.getD j1 .null) = some k1 ∧
      getPrimaryKey cfg none (rem.getD j2 .null) = some k2 ∧
      toMapKey k1 = toMapKey k2)

/-- A duplicate witness for the unique-mode overlay pre-scan: as
`DupWitness`, but items marked for deletion do not participate. -/
def PrescanWitness (cfg : Cfg) (keys : List (Value × Nat)) (rem : List Value) : Prop :=
  (∃ j key, j < rem.length ∧
      isMarkedForDeletion cfg (rem.getD j .null) = false ∧
      getPrimaryKey cfg none (rem.getD j .null) = some key ∧
      ∃ pr, pr ∈ keys ∧ pr.1 = toMapKey key) ∨
  (∃ j1 j2 k1 k2, j1 < j2 ∧ j2 < rem.length ∧
      isMarkedForDeletion cfg (rem.getD j1 .null) = false ∧
      isMarkedForDeletion cfg (rem.getD j2 .null) = false ∧
      getPrimaryKey cfg none (rem.getD j1 .null) = some k1 ∧
      getPrimaryKey cfg none (rem.getD j2 .null) = some k2 ∧
      toMapKey k1 = toMapKey k2)

/-- Positional soundness of a reported duplicate-key error, relative to
the loop state (`idx` holding earlier positions, `rem` starting at
absolute position `i`): the second position names an item of `rem`
carrying the reported key, and the first names either an earlier item of
`rem` with an equal map key or a position recorded in `idx`. -/
def DupErrSound (cfg : Cfg) (idx : List (Value × Nat)) (i : Nat)
    (rem : List Value) (ks : String) (q1 q2 : Nat) : Prop :=
  i ≤ q2 ∧ q2 < i + rem.length ∧ q1 < q2 ∧
  ∃ key, getPrimaryKey cfg none (rem.getD (q2 - i) .null) = some key ∧
    ks = keyString key ∧
    ((i ≤ q1 ∧ ∃ k1, getPrimaryKey cfg none (rem.getD (q1 - i) .null) = some k1 ∧
        toMapKey k1 = toMapKey key) ∨
     (toMapKey key, q1) ∈ idx)

/-- Positional soundness of a duplicate-key error reported by the overlay
pre-scan: both positions name non-deletion-marked items of the overlay
with equal map keys (or a position already recorded in `keys`). -/
def PrescanErrSound (cfg : Cfg) (keys : List (Value × Nat)) (i : Nat)
    (rem : List Value) (ks : String) (q1 q2 : Nat) : Prop :=
  i ≤ q2 ∧ q2 < i + rem.length ∧ q1 < q2 ∧
  ∃ key, isMarkedForDeletion cfg (rem.getD (q2 - i) .null) = false ∧
    getPrimaryKey cfg none (rem.getD (q2 - i) .null) = some key ∧
    ks = keyString key ∧
    ((i ≤ q1 ∧ isMarkedForDeletion cfg (rem.getD (q1 - i) .null) = false ∧
        ∃ k1, getPrimaryKey cfg none (rem.getD (q1 - i) .null) = some k1 ∧
          toMapKey k1 = toMapKey key) ∨
     (toMapKey key, q1) ∈ keys)

/-- Key-wise equality of two Go maps: association lists observed only
through `lookupA`, the way Go map reads observe them. -/
def mapsEquiv (m1 m2 : List (String × Value)) : Prop :=
  ∀ k, lookupA m1 k = lookupA m2 k

/-- Equality of optional map-merge outcomes up to `mapsEquiv`: both runs
failed, or both succeeded with key-wise equal maps. -/
def okMapsEquiv :
    Option (List (String × Value)) → Option (List (String × Value)) → Prop
  | none, none => True
  | some m1, some m2 => mapsEquiv m1 m2
  | _, _ => False

/-- Go `m[k] = v` / `delete(m, k)` as one operation: set the binding of
`k` to `ov`, where `none` deletes the binding. -/
def setA (res : List (String × Value)) (k : String) :
    Option Value → List (String × Value)
  | none => eraseA res k
  | some w =>
      if (lookupA res k).isSome then updateA res k w else res ++ [(k, w)]

/-- The outcome of one `mergeMapsGo` step on overlay entry `(k, v)`:
`none` when the nested merge fails, otherwise the new binding of `k`
(`none` inside the option meaning deletion). -/
def stepVal (mv : MergeFn) (cfg : Cfg) (p : Path)
    (res : List (String × Value)) (k : String) (v : Value) :
    Option (Option Value) :=
  if isMarkedForDeletion cfg v then some none
  else
    match lookupA res k with
    | none => some (some v)
    | some bv =>
        match okPart (mv (pushSeg cfg p k) bv v) with
        | none => none
        | some m => some (some m)

section PathLemmas

theorem popSeg_pushSeg (cfg : Cfg) (p : Path) (n : String) :
    popSeg (pushSeg cfg p n) = p := by
  cases h : cfg.rootMeta <;> simp [pushSeg, popSeg, h]

theorem currentMeta_pushSeg (cfg : Cfg) (h : cfg.rootMeta = none)
    (p : Path) (n : String) : currentMeta (pushSeg cfg p n) = none := by
  simp [pushSeg, h, currentMeta]

theorem pathNames_pushSeg (cfg : Cfg) (p : Path) (n : String) :
    pathNames (pushSeg cfg p n) = pathNames p ++ [n] := by
  cases h : cfg.rootMeta <;> simp [pushSeg, pathNames, h]

theorem toMapKey_comparable (key : PKey) (h : isKeyComparable key = true) :
    isComparable (toMapKey key) = true := by
  cases key with
  | single v => simpa [isKeyComparable, toMapKey] using h
  | composite vs => rfl

theorem idxFind_found (idx : List (Value × Nat)) (mk : Value)
    (hc : isComparable mk = true)
    (hmem : ∃ pr, pr ∈ idx ∧ pr.1 = mk) :
    ∃ q, idxFind idx mk = .ok (some q) ∧ (mk, q) ∈ idx := by
  obtain ⟨pr, hpr, hpr1⟩ := hmem
  have hfind : (idx.find? fun e => e.1 == mk).isSome = true := by
    rw [List.find?_isSome]
    exact ⟨pr, hpr, by simp [hpr1]⟩
  obtain ⟨e, he⟩ := Option.isSome_iff_exists.mp hfind
  have hmem2 := List.mem_of_find?_eq_some he
  have heq : e.1 = mk := by
    have := List.find?_some he
    simpa using this
  refine ⟨e.2, ?_, ?_⟩
  · simp [idxFind, hc, he]
  · rw [← heq]
    exact hmem2

theorem idxFind_not_found (idx : List (Value × Nat)) (mk : Value)
    (hc : isComparable mk = true)
    (hmem : ∀ pr ∈ idx, pr.1 ≠ mk) :
    idxFind idx mk = .ok none := by
  have hfind : (idx.find? fun e => e.1 == mk) = none := by
    rw [List.find?_eq_none]
    intro pr hpr
    simp [hmem pr hpr]
  simp [idxFind, hc, hfind]

theorem idxPut_fresh (idx : List (Value × Nat)) (mk : Value) (n : Nat)
    (hc : isComparable mk = true)
    (hmem : ∀ pr ∈ idx, pr.1 ≠ mk) :
    idxPut idx mk n = .ok (idx ++ [(mk, n)]) := by
  have hfind : (idx.find? fun e => e.1 == mk) = none := by
    rw [List.find?_eq_none]
    intro pr hpr
    simp [hmem pr hpr]
  simp [idxPut, hc, hfind]

end PathLemmas

section DedupLemmas

theorem dedupGo_acc (rem : List Value) :
    ∀ seen res, dedupGo seen res rem = res ++ dedupGo seen [] rem := by
  induction rem with
  | nil => intro seen res; simp [dedupGo]
  | cons item rest ih =>
      intro seen res
      by_cases hc : isComparable item
      · by_cases hs : item ∈ seen
        · simp only [dedupGo, hc, hs, ite_true]
          exact ih seen res
        · simp only [dedupGo, hc, hs, ite_true, ite_false]
          rw [ih _ (res ++ [item]), ih _ ([] ++ [item])]
          simp
      · simp only [dedupGo, hc, Bool.false_eq_true, ite_false]
        rw [ih seen (res ++ [item]), ih seen ([] ++ [item])]
        simp

theorem dedupGo_sublist (rem : List Value) :
    ∀ seen, (dedupGo seen [] rem).Sublist rem := by
  induction rem with
  | nil => intro seen; simp [dedupGo]
  | cons item rest ih =>
      intro seen
      by_cases hc : isComparable item
      · by_cases hs : item ∈ seen
        · simp only [dedupGo, hc, hs, ite_true]
          exact (ih seen).cons _
        · simp only [dedupGo, hc, hs, ite_true, ite_false]
          rw [dedupGo_acc]
          simpa using (ih (seen ++ [item])).cons₂ item
      · simp only [dedupGo, hc, Bool.false_eq_true, ite_false]
        rw [dedupGo_acc]
        simpa using (ih seen).cons₂ item

theorem dedupGo_count_seen (rem : List Value) :
    ∀ seen v, isComparable v → v ∈ seen →
      (dedupGo seen [] rem).count v = 0 := by
  induction rem with
  | nil => intro seen v _ _; simp [dedupGo]
  | cons item rest ih =>
      intro seen v hv hseen
      by_cases hc : isComparable item
      · by_cases hs : item ∈ seen
        · simp only [dedupGo, hc, hs, ite_true]
          exact ih seen v hv hseen
        · have hne : v ≠ item := fun he => hs (he ▸ hseen)
          simp only [dedupGo, hc, hs, ite_true, ite_false]
          rw [dedupGo_acc]
          simp only [List.count_append, List.singleton_append]
          rw [List.count_cons_of_ne hne]
          simpa using ih (seen ++ [item]) v hv (by simp [hseen])
      · have hne : v ≠ item := by
          intro he
          rw [← he] at hc
          exact hc hv
        simp only [dedupGo, hc, Bool.false_eq_true, ite_false]
        rw [dedupGo_acc]
        simp only [List.count_append, List.singleton_append]
        rw [List.count_cons_of_ne hne]
        simpa using ih seen v hv hseen

theorem dedupGo_count_le_one (rem : List Value) :
    ∀ seen v, isComparable v →
      (dedupGo seen [] rem).count v ≤ 1 := by
  induction rem with
  | nil => intro seen v _; simp [dedupGo]
  | cons item rest ih =>
      intro seen v hv
      by_cases hc : isComparable item
      · by_cases hs : item ∈ seen
        · simp only [dedupGo, hc, hs, ite_true]
          exact ih seen v hv
        · simp only [dedupGo, hc, hs, ite_true, ite_false]
          rw [dedupGo_acc]
          simp only [List.count_append, List.singleton_append]
          by_cases he : v = item
          · subst he
            rw [List.count_cons_self, List.count_nil]
            have h0 := dedupGo_count_seen rest (seen ++ [v]) v hv (by simp)
            omega
          · rw [List.count_cons_of_ne he]
            simpa using ih (seen ++ [item]) v hv
      · have hne : v ≠ item := by
          intro he
          rw [← he] at hc
          exact hc hv
        simp only [dedupGo, hc, Bool.false_eq_true, ite_false]
        rw [dedupGo_acc]
        simp only [List.count_append, List.singleton_append]
        rw [List.count_cons_of_ne hne]
        simpa using ih seen v hv

theorem dedupGo_mem (rem : List Value) :
    ∀ seen v, isComparable v → v ∈ rem → v ∉ seen →
      v ∈ dedupGo seen [] rem := by
  induction rem with
  | nil => intro seen v _ hmem _; cases hmem
  | cons item rest ih =>
      intro seen v hv hmem hsn
      by_cases hc : isComparable item
      · by_cases hs : item ∈ seen
        · simp only [dedupGo, hc, hs, ite_true]
          rcases List.mem_cons.mp hmem with he | hmem2
          · exact absurd (he ▸ hs) hsn
          · exact ih seen v hv hmem2 hsn
        · simp only [dedupGo, hc, hs, ite_true, ite_false]
          rw [dedupGo_acc]
          rcases List.mem_cons.mp hmem with he | hmem2
          · subst he; simp
          · by_cases he2 : v = item
            · subst he2; simp
            · have : v ∉ seen ++ [item] := by
                simp only [List.mem_append, List.mem_singleton]
                rintro (h | h)
                · exact hsn h
                · exact he2 h
              simpa using Or.inr (ih (seen ++ [item]) v hv hmem2 this)
      · simp only [dedupGo, hc, Bool.false_eq_true, ite_false]
        rw [dedupGo_acc]
        rcases List.mem_cons.mp hmem with he | hmem2
        · subst he
          exact absurd hv hc
        · simpa using Or.inr (ih seen v hv hmem2 hsn)

theorem dedupGo_filter_noncomparable (rem : List Value) :
    ∀ seen,
      (dedupGo seen [] rem).filter (fun it => !isComparable it)
        = rem.filter (fun it => !isComparable it) := by
  induction rem with
  | nil => intro seen; simp [dedupGo]
  | cons item rest ih =>
      intro seen
      by_cases hc : isComparable item
      · by_cases hs : item ∈ seen
        · simp only [dedupGo, hc, hs, ite_true]
          rw [ih seen]
          simp [List.filter_cons, hc]
        · simp only [dedupGo, hc, hs, ite_true, ite_false]
          rw [dedupGo_acc]
          simp [List.filter_cons, hc, ih (seen ++ [item])]
      · simp only [dedupGo, hc, Bool.false_eq_true, ite_false]
        rw [dedupGo_acc]
        have hc2 : isComparable item = false := by
          revert hc; cases isComparable item <;> simp
        simp [List.filter_cons, hc2, ih seen]

end DedupLemmas

section UniqueDupLemmas

theorem slicesBase_unique_dup (mv : MergeFn) (cfg : Cfg) (di : Nat)
    (hroot : cfg.rootMeta = none) :
    ∀ (rem : List Value) (i : Nat) (res : List Value) (idx : List (Value × Nat)) (p : Path),
      res.length = i →
      (∀ it ∈ rem, ∀ key, getPrimaryKey cfg none it = some key → isKeyComparable key = true) →
      (∀ pr ∈ idx, pr.2 < i) →
      DupWitness cfg idx rem →
      ∃ ks q1 q2,
        slicesBase mv cfg di .unique p i res idx rem
          = (.error (.dupKey ks q1 q2 (pathNames p ++ [toString q2]) di), p) ∧
        DupErrSound cfg idx i rem ks q1 q2 := by
  intro rem
  induction rem with
  | nil =>
      intro i res idx p _ _ _ hwit
      rcases hwit with ⟨j, key, hj, _⟩ | ⟨j1, j2, k1, k2, _, hj2, _⟩
      · exact absurd hj (by simp)
      · exact absurd hj2 (by simp)
  | cons item rest ih =>
      intro i res idx p hlen hcomp hidx hwit
      have hm : currentMeta (pushSeg cfg p (toString i)) = none :=
        currentMeta_pushSeg cfg hroot p (toString i)
      have hcomp2 : ∀ it ∈ rest, ∀ key, getPrimaryKey cfg none it = some key →
          isKeyComparable key = true :=
        fun it hit => hcomp it (List.mem_cons_of_mem _ hit)
      cases hk : getPrimaryKey cfg none item with
      | none =>
          have hstep : slicesBase mv cfg di .unique p i res idx (item :: rest)
              = slicesBase mv cfg di .unique p (i + 1) (res ++ [item]) idx rest := by
            simp only [slicesBase, hm, hk, popSeg_pushSeg]
          have hwit2 : DupWitness cfg idx rest := by
            rcases hwit with ⟨j, key, hj, hkey, hpr⟩ |
              ⟨j1, j2, k1, k2, h12, hj2, hk1, hk2, hmk⟩
            · cases j with
              | zero =>
                  rw [List.getD_cons_zero, hk] at hkey
                  cases hkey
              | succ j2 =>
                  left
                  rw [List.getD_cons_succ] at hkey
                  exact ⟨j2, key, by simp at hj; omega, hkey, hpr⟩
            · cases j1 with
              | zero =>
                  rw [List.getD_cons_zero, hk] at hk1
                  cases hk1
              | succ j3 =>
                  cases j2 with
                  | zero => omega
                  | succ j4 =>
                      right
                      rw [List.getD_cons_succ] at hk1 hk2
                      exact ⟨j3, j4, k1, k2, by omega, by simp at hj2; omega, hk1, hk2, hmk⟩
          obtain ⟨ks, q1, q2, hres, hsound⟩ :=
            ih (i + 1) (res ++ [item]) idx p (by simp [hlen])
              hcomp2 (fun pr hpr => Nat.lt_succ_of_lt (hidx pr hpr)) hwit2
          refine ⟨ks, q1, q2, hstep ▸ hres, ?_⟩
          obtain ⟨hq2i, hq2len, hq12, key2, hkey2, hks, hq1c⟩ := hsound
          refine ⟨by omega, by simp only [List.length_cons]; omega, hq12, key2, ?_, hks, ?_⟩
          · have h5 : q2 - i = (q2 - (i + 1)) + 1 := by omega
            rw [h5, List.getD_cons_succ]
            exact hkey2
          · rcases hq1c with ⟨hq1i, k1, hk1, hmk⟩ | hidxmem
            · left
              refine ⟨by omega, k1, ?_, hmk⟩
              have h5 : q1 - i = (q1 - (i + 1)) + 1 := by omega
              rw [h5, List.getD_cons_succ]
              exact hk1
            · exact Or.inr hidxmem
      | some key =>
          have hcmp : isKeyComparable key = true := hcomp item (by simp) key hk
          have hmkc : isComparable (toMapKey key) = true := toMapKey_comparable key hcmp
          by_cases hfound : ∃ pr, pr ∈ idx ∧ pr.1 = toMapKey key
          · obtain ⟨q, hfq, hqmem⟩ := idxFind_found idx (toMapKey key) hmkc hfound
            have hq_lt : q < i := hidx (toMapKey key, q) hqmem
            refine ⟨keyString key, q, i, ?_, ?_⟩
            · simp only [slicesBase, hm, hk, hcmp, ite_true, hfq, popSeg_pushSeg,
                pathNames_pushSeg]
            · exact ⟨le_refl i, by simp, hq_lt, key,
                by rw [Nat.sub_self, List.getD_cons_zero]; exact hk, rfl, Or.inr hqmem⟩
          · have hnf : ∀ pr ∈ idx, pr.1 ≠ toMapKey key := by
              intro pr hpr he
              exact hfound ⟨pr, hpr, he⟩
            have hfq := idxFind_not_found idx _ hmkc hnf
            have hput := idxPut_fresh idx _ res.length hmkc hnf
            have hstep : slicesBase mv cfg di .unique p i res idx (item :: rest)
                = slicesBase mv cfg di .unique p (i + 1) (res ++ [item])
                    (idx ++ [(toMapKey key, res.length)]) rest := by
              simp only [slicesBase, hm, hk, hcmp, ite_true, hfq, hput, popSeg_pushSeg]
            have hidx2 : ∀ pr ∈ idx ++ [(toMapKey key, res.length)], pr.2 < i + 1 := by
              intro pr hpr
              rcases List.mem_append.mp hpr with hold | hnew
              · exact Nat.lt_succ_of_lt (hidx pr hold)
              · rw [List.mem_singleton.mp hnew]
                omega
            have hwit2 : DupWitness cfg (idx ++ [(toMapKey key, res.length)]) rest := by
              rcases hwit with ⟨j, key2, hj, hkey2, pr, hpr, hpr1⟩ |
                ⟨j1, j2, k1, k2, h12, hj2, hk1, hk2, hmk⟩
              · cases j with
                | zero =>
                    rw [List.getD_cons_zero, hk] at hkey2
                    injection hkey2 with he
                    subst he
                    exact absurd hpr1 (hnf pr hpr)
                | succ j2 =>
                    left
                    rw [List.getD_cons_succ] at hkey2
                    exact ⟨j2, key2, by simp at hj; omega, hkey2, pr,
                      List.mem_append_left _ hpr, hpr1⟩
              · cases j1 with
                | zero =>
                    rw [List.getD_cons_zero, hk] at hk1
                    injection hk1 with he
                    subst he
                    cases j2 with
                    | zero => omega
                    | succ j4 =>
                        left
                        rw [List.getD_cons_succ] at hk2
                        exact ⟨j4, k2, by simp at hj2; omega, hk2,
                          (toMapKey key, res.length), by simp, hmk⟩
                | succ j3 =>
                    cases j2 with
                    | zero => omega
                    | succ j4 =>
                        right
                        rw [List.getD_cons_succ] at hk1 hk2
                        exact ⟨j3, j4, k1, k2, by omega, by simp at hj2; omega, hk1, hk2, hmk⟩
            obtain ⟨ks, q1, q2, hres, hsound⟩ :=
              ih (i + 1) (res ++ [item]) (idx ++ [(toMapKey key, res.length)]) p
                (by simp [hlen]) hcomp2 hidx2 hwit2
            refine ⟨ks, q1, q2, hstep ▸ hres, ?_⟩
            obtain ⟨hq2i, hq2len, hq12, key2, hkey2, hks, hq1c⟩ := hsound
            refine ⟨by omega, by simp only [List.length_cons]; omega, hq12, key2, ?_, hks, ?_⟩
            · have h5 : q2 - i = (q2 - (i + 1)) + 1 := by omega
              rw [h5, List.getD_cons_succ]
              exact hkey2
            · rcases hq1c with ⟨hq1i, k1, hk1, hmk⟩ | hidxmem
              · left
                refine ⟨by omega, k1, ?_, hmk⟩
                have h5 : q1 - i = (q1 - (i + 1)) + 1 := by omega
                rw [h5, List.getD_cons_succ]
                exact hk1
              · rcases List.mem_append.mp hidxmem with hold | hnew
                · exact Or.inr hold
                · left
                  have he := List.mem_singleton.mp hnew
                  have h1 : toMapKey key2 = toMapKey key := congrArg Prod.fst he
                  have h2 : q1 = res.length := congrArg Prod.snd he
                  refine ⟨by omega, key, ?_, h1.symm⟩
                  have h5 : q1 - i = 0 := by omega
                  rw [h5, List.getD_cons_zero]
                  exact hk

theorem getPrimaryKey_ne_null (cfg : Cfg) (m : Option Meta) (it : Value)
    (key : PKey) (h : getPrimaryKey cfg m it = some key) : it ≠ .null := by
  intro he
  subst he
  simp [getPrimaryKey] at h

theorem slicesBase_unique_ok (mv : MergeFn) (cfg : Cfg) (di : Nat)
    (hroot : cfg.rootMeta = none) :
    ∀ (rem : List Value) (i : Nat) (res : List Value) (idx : List (Value × Nat)) (p : Path),
      res.length = i →
      (∀ it ∈ rem, ∀ key, getPrimaryKey cfg none it = some key → isKeyComparable key = true) →
      (∀ pr ∈ idx, pr.2 < i ∧ res.getD pr.2 .null ≠ .null) →
      ¬ DupWitness cfg idx rem →
      ∃ idx2,
        slicesBase mv cfg di .unique p i res idx rem = (.ok (res ++ rem, idx2), p) ∧
        (∀ pr ∈ idx2, pr.2 < i + rem.length ∧ (res ++ rem).getD pr.2 .null ≠ .null) := by
  intro rem
  induction rem with
  | nil =>
      intro i res idx p hlen _ hinv _
      refine ⟨idx, by simp [slicesBase], ?_⟩
      intro pr hpr
      exact ⟨by have := (hinv pr hpr).1; omega, by simpa using (hinv pr hpr).2⟩
  | cons item rest ih =>
      intro i res idx p hlen hcomp hinv hno
      have hm : currentMeta (pushSeg cfg p (toString i)) = none :=
        currentMeta_pushSeg cfg hroot p (toString i)
      have hcomp2 : ∀ it ∈ rest, ∀ key, getPrimaryKey cfg none it = some key →
          isKeyComparable key = true :=
        fun it hit => hcomp it (List.mem_cons_of_mem _ hit)
      have hinv2 : ∀ pr ∈ idx, pr.2 < i + 1 ∧ (res ++ [item]).getD pr.2 .null ≠ .null := by
        intro pr hpr
        obtain ⟨h1, h2⟩ := hinv pr hpr
        refine ⟨by omega, ?_⟩
        rw [List.getD_append _ _ _ _ (by omega)]
        exact h2
      cases hk : getPrimaryKey cfg none item with
      | none =>
          have hstep : slicesBase mv cfg di .unique p i res idx (item :: rest)
              = slicesBase mv cfg di .unique p (i + 1) (res ++ [item]) idx rest := by
            simp only [slicesBase, hm, hk, popSeg_pushSeg]
          have hno2 : ¬ DupWitness cfg idx rest := by
            intro hw
            apply hno
            rcases hw with ⟨j, key, hj, hkey, hpr⟩ |
              ⟨j1, j2, k1, k2, h12, hj2, hk1, hk2, hmk⟩
            · exact Or.inl ⟨j + 1, key, by simp; omega,
                by rw [List.getD_cons_succ]; exact hkey, hpr⟩
            · exact Or.inr ⟨j1 + 1, j2 + 1, k1, k2, by omega, by simp; omega,
                by rw [List.getD_cons_succ]; exact hk1,
                by rw [List.getD_cons_succ]; exact hk2, hmk⟩
          obtain ⟨idx2, hres, hinv3⟩ :=
            ih (i + 1) (res ++ [item]) idx p (by simp [hlen]) hcomp2 hinv2 hno2
          refine ⟨idx2, ?_, ?_⟩
          · rw [hstep, hres]
            simp
          · intro pr hpr
            obtain ⟨h1, h2⟩ := hinv3 pr hpr
            refine ⟨by simp only [List.length_cons]; omega, ?_⟩
            simpa using h2
      | some key =>
          have hcmp : isKeyComparable key = true := hcomp item (by simp) key hk
          have hmkc : isComparable (toMapKey key) = true := toMapKey_comparable key hcmp
          have hnf : ∀ pr ∈ idx, pr.1 ≠ toMapKey key := by
            intro pr hpr he
            apply hno
            exact Or.inl ⟨0, key, by simp, by rw [List.getD_cons_zero]; exact hk,
              pr, hpr, he⟩
          have hfq := idxFind_not_found idx _ hmkc hnf
          have hput := idxPut_fresh idx _ res.length hmkc hnf
          have hstep : slicesBase mv cfg di .unique p i res idx (item :: rest)
              = slicesBase mv cfg di .unique p (i + 1) (res ++ [item])
                  (idx ++ [(toMapKey key, res.length)]) rest := by
            simp only [slicesBase, hm, hk, hcmp, ite_true, hfq, hput, popSeg_pushSeg]
          have hitem_ne : item ≠ .null := getPrimaryKey_ne_null cfg none item key hk
          have hinv2b : ∀ pr ∈ idx ++ [(toMapKey key, res.length)],
              pr.2 < i + 1 ∧ (res ++ [item]).getD pr.2 .null ≠ .null := by
            intro pr hpr
            rcases List.mem_append.mp hpr with hold | hnew
            · exact hinv2 pr hold
            · rw [List.mem_singleton.mp hnew]
              refine ⟨by omega, ?_⟩
              rw [List.getD_append_right _ _ _ _ (by omega)]
              simpa [hlen] using hitem_ne
          have hno2 : ¬ DupWitness cfg (idx ++ [(toMapKey key, res.length)]) rest := by
            intro hw
            apply hno
            rcases hw with ⟨j, key2, hj, hkey2, pr, hpr, hpr1⟩ |
              ⟨j1, j2, k1, k2, h12, hj2, hk1, hk2, hmk⟩
            · rcases List.mem_append.mp hpr with hold | hnew
              · exact Or.inl ⟨j + 1, key2, by simp; omega,
                  by rw [List.getD_cons_succ]; exact hkey2, pr, hold, hpr1⟩
              · right
                have he := List.mem_singleton.mp hnew
                refine ⟨0, j + 1, key, key2, by omega, by simp; omega,
                  by rw [List.getD_cons_zero]; exact hk,
                  by rw [List.getD_cons_succ]; exact hkey2, ?_⟩
                have h1 : pr.1 = toMapKey key := congrArg Prod.fst he
                rw [← h1, hpr1]
            · exact Or.inr ⟨j1 + 1, j2 + 1, k1, k2, by omega, by simp; omega,
                by rw [List.getD_cons_succ]; exact hk1,
                by rw [List.getD_cons_succ]; exact hk2, hmk⟩
          obtain ⟨idx2, hres, hinv3⟩ :=
            ih (i + 1) (res ++ [item]) (idx ++ [(toMapKey key, res.length)]) p
              (by simp [hlen]) hcomp2 hinv2b hno2
          refine ⟨idx2, ?_, ?_⟩
          · rw [hstep, hres]
            simp
          · intro pr hpr
            obtain ⟨h1, h2⟩ := hinv3 pr hpr
            refine ⟨by simp only [List.length_cons]; omega, ?_⟩
            simpa using h2

theorem overlayPrescan_dup (cfg : Cfg) (di : Nat)
    (hroot : cfg.rootMeta = none) :
    ∀ (rem : List Value) (i : Nat) (keys : List (Value × Nat)) (p : Path),
      (∀ it ∈ rem, isMarkedForDeletion cfg it = false →
        ∀ key, getPrimaryKey cfg none it = some key → isKeyComparable key = true) →
      (∀ pr ∈ keys, pr.2 < i) →
      PrescanWitness cfg keys rem →
      ∃ ks q1 q2,
        overlayPrescan cfg di p i keys rem
          = (.error (.dupKey ks q1 q2 (pathNames p ++ [toString q2]) di), p) ∧
        PrescanErrSound cfg keys i rem ks q1 q2 := by
  intro rem
  induction rem with
  | nil =>
      intro i keys p _ _ hwit
      rcases hwit with ⟨j, key, hj, _⟩ | ⟨j1, j2, k1, k2, _, hj2, _⟩
      · exact absurd hj (by simp)
      · exact absurd hj2 (by simp)
  | cons item rest ih =>
      intro i keys p hcomp hkeys hwit
      have hm : currentMeta (pushSeg cfg p (toString i)) = none :=
        currentMeta_pushSeg cfg hroot p (toString i)
      have hcomp2 : ∀ it ∈ rest, isMarkedForDeletion cfg it = false →
          ∀ key, getPrimaryKey cfg none it = some key → isKeyComparable key = true :=
        fun it hit => hcomp it (List.mem_cons_of_mem _ hit)
      by_cases hdel : isMarkedForDeletion cfg item = true
      · have hstep : overlayPrescan cfg di p i keys (item :: rest)
            = overlayPrescan cfg di p (i + 1) keys rest := by
          simp only [overlayPrescan, hdel, ite_true, popSeg_pushSeg]
        have hwit2 : PrescanWitness cfg keys rest := by
          rcases hwit with ⟨j, key, hj, hjm, hkey, hpr⟩ |
            ⟨j1, j2, k1, k2, h12, hj2, hm1, hm2, hk1, hk2, hmk⟩
          · cases j with
            | zero =>
                rw [List.getD_cons_zero] at hjm
                rw [hjm] at hdel
                cases hdel
            | succ j2 =>
                left
                rw [List.getD_cons_succ] at hjm hkey
                exact ⟨j2, key, by simp at hj; omega, hjm, hkey, hpr⟩
          · cases j1 with
            | zero =>
                rw [List.getD_cons_zero] at hm1
                rw [hm1] at hdel
                cases hdel
            | succ j3 =>
                cases j2 with
                | zero => omega
                | succ j4 =>
                    right
                    rw [List.getD_cons_succ] at hm1 hm2 hk1 hk2
                    exact ⟨j3, j4, k1, k2, by omega, by simp at hj2; omega,
                      hm1, hm2, hk1, hk2, hmk⟩
        obtain ⟨ks, q1, q2, hres, hsound⟩ :=
          ih (i + 1) keys p hcomp2 (fun pr hpr => Nat.lt_succ_of_lt (hkeys pr hpr)) hwit2
        refine ⟨ks, q1, q2, hstep ▸ hres, ?_⟩
        obtain ⟨hq2i, hq2len, hq12, key2, hmark2, hkey2, hks, hq1c⟩ := hsound
        have h5 : q2 - i = (q2 - (i + 1)) + 1 := by omega
        refine ⟨by omega, by simp only [List.length_cons]; omega, hq12, key2, ?_, ?_, hks, ?_⟩
        · rw [h5, List.getD_cons_succ]
          exact hmark2
        · rw [h5, List.getD_cons_succ]
          exact hkey2
        · rcases hq1c with ⟨hq1i, hmk1, k1, hk1, hmk⟩ | hmem
          · left
            have h6 : q1 - i = (q1 - (i + 1)) + 1 := by omega
            refine ⟨by omega, ?_, k1, ?_, hmk⟩
            · rw [h6, List.getD_cons_succ]
              exact hmk1
            · rw [h6, List.getD_cons_succ]
              exact hk1
          · exact Or.inr hmem
      · have hdelf : isMarkedForDeletion cfg item = false := by
          revert hdel
          cases isMarkedForDeletion cfg item <;> simp
        cases hk : getPrimaryKey cfg none item with
        | none =>
            have hstep : overlayPrescan cfg di p i keys (item :: rest)
                = overlayPrescan cfg di p (i + 1) keys rest := by
              simp only [overlayPrescan, hdelf, Bool.false_eq_true, ite_false, hm, hk,
                popSeg_pushSeg]
            have hwit2 : PrescanWitness cfg keys rest := by
              rcases hwit with ⟨j, key, hj, hjm, hkey, hpr⟩ |
                ⟨j1, j2, k1, k2, h12, hj2, hm1, hm2, hk1, hk2, hmk⟩
              · cases j with
                | zero =>
                    rw [List.getD_cons_zero, hk] at hkey
                    cases hkey
                | succ j2 =>
                    left
                    rw [List.getD_cons_succ] at hjm hkey
                    exact ⟨j2, key, by simp at hj; omega, hjm, hkey, hpr⟩
              · cases j1 with
                | zero =>
                    rw [List.getD_cons_zero, hk] at hk1
                    cases hk1
                | succ j3 =>
                    cases j2 with
                    | zero => omega
                    | succ j4 =>
                        right
                        rw [List.getD_cons_succ] at hm1 hm2 hk1 hk2
                        exact ⟨j3, j4, k1, k2, by omega, by simp at hj2; omega,
                          hm1, hm2, hk1, hk2, hmk⟩
            obtain ⟨ks, q1, q2, hres, hsound⟩ :=
              ih (i + 1) keys p hcomp2 (fun pr hpr => Nat.lt_succ_of_lt (hkeys pr hpr)) hwit2
            refine ⟨ks, q1, q2, hstep ▸ hres, ?_⟩
            obtain ⟨hq2i, hq2len, hq12, key2, hmark2, hkey2, hks, hq1c⟩ := hsound
            have h5 : q2 - i = (q2 - (i + 1)) + 1 := by omega
            refine ⟨by omega, by simp only [List.length_cons]; omega, hq12, key2, ?_, ?_, hks, ?_⟩
            · rw [h5, List.getD_cons_succ]
              exact hmark2
            · rw [h5, List.getD_cons_succ]
              exact hkey2
            · rcases hq1c with ⟨hq1i, hmk1, k1, hk1, hmk⟩ | hmem
              · left
                have h6 : q1 - i = (q1 - (i + 1)) + 1 := by omega
                refine ⟨by omega, ?_, k1, ?_, hmk⟩
                · rw [h6, List.getD_cons_succ]
                  exact hmk1
                · rw [h6, List.getD_cons_succ]
                  exact hk1
              · exact Or.inr hmem
        | some key =>
            have hcmp : isKeyComparable key = true := hcomp item (by simp) hdelf key hk
            have hmkc : isComparable (toMapKey key) = true := toMapKey_comparable key hcmp
            by_cases hfound : ∃ pr, pr ∈ keys ∧ pr.1 = toMapKey key
            · obtain ⟨q, hfq, hqmem⟩ := idxFind_found keys (toMapKey key) hmkc hfound
              have hq_lt : q < i := hkeys (toMapKey key, q) hqmem
              refine ⟨keyString key, q, i, ?_, ?_⟩
              · simp only [overlayPrescan, hdelf, Bool.false_eq_true, ite_false, hm, hk,
                  hcmp, ite_true, hfq, popSeg_pushSeg, pathNames_pushSeg]
              · exact ⟨le_refl i, by simp, hq_lt, key,
                  by rw [Nat.sub_self, List.getD_cons_zero]; exact hdelf,
                  by rw [Nat.sub_self, List.getD_cons_zero]; exact hk, rfl, Or.inr hqmem⟩
            · have hnf : ∀ pr ∈ keys, pr.1 ≠ toMapKey key := by
                intro pr hpr he
                exact hfound ⟨pr, hpr, he⟩
              have hfq := idxFind_not_found keys _ hmkc hnf
              have hput := idxPut_fresh keys _ i hmkc hnf
              have hstep : overlayPrescan cfg di p i keys (item :: rest)
                  = overlayPrescan cfg di p (i + 1) (keys ++ [(toMapKey key, i)]) rest := by
                simp only [overlayPrescan, hdelf, Bool.false_eq_true, ite_false, hm, hk,
                  hcmp, ite_true, hfq, hput, popSeg_pushSeg]
              have hkeys2 : ∀ pr ∈ keys ++ [(toMapKey key, i)], pr.2 < i + 1 := by
                intro pr hpr
                rcases List.mem_append.mp hpr with hold | hnew
                · exact Nat.lt_succ_of_lt (hkeys pr hold)
                · rw [List.mem_singleton.mp hnew]
                  omega
              have hwit2 : PrescanWitness cfg (keys ++ [(toMapKey key, i)]) rest := by
                rcases hwit with ⟨j, key2, hj, hjm, hkey2, pr, hpr, hpr1⟩ |
                  ⟨j1, j2, k1, k2, h12, hj2, hm1, hm2, hk1, hk2, hmk⟩
                · cases j with
                  | zero =>
                      rw [List.getD_cons_zero, hk] at hkey2
                      injection hkey2 with he
                      subst he
                      exact absurd hpr1 (hnf pr hpr)
                  | succ j2 =>
                      left
                      rw [List.getD_cons_succ] at hjm hkey2
                      exact ⟨j2, key2, by simp at hj; omega, hjm, hkey2, pr,
                        List.mem_append_left _ hpr, hpr1⟩
                · cases j1 with
                  | zero =>
                      rw [List.getD_cons_zero, hk] at hk1
                      injection hk1 with he
                      subst he
                      cases j2 with
                      | zero => omega
                      | succ j4 =>
                          left
                          rw [List.getD_cons_succ] at hm2 hk2
                          exact ⟨j4, k2, by simp at hj2; omega, hm2, hk2,
                            (toMapKey key, i), by simp, hmk⟩
                  | succ j3 =>
                      cases j2 with
                      | zero => omega
                      | succ j4 =>
                          right
                          rw [List.getD_cons_succ] at hm1 hm2 hk1 hk2
                          exact ⟨j3, j4, k1, k2, by omega, by simp at hj2; omega,
                            hm1, hm2, hk1, hk2, hmk⟩
              obtain ⟨ks, q1, q2, hres, hsound⟩ :=
                ih (i + 1) (keys ++ [(toMapKey key, i)]) p hcomp2 hkeys2 hwit2
              refine ⟨ks, q1, q2, hstep ▸ hres, ?_⟩
              obtain ⟨hq2i, hq2len, hq12, key2, hmark2, hkey2, hks, hq1c⟩ := hsound
              have h5 : q2 - i = (q2 - (i + 1)) + 1 := by omega
              refine ⟨by omega, by simp only [List.length_cons]; omega, hq12, key2,
                ?_, ?_, hks, ?_⟩
              · rw [h5, List.getD_cons_succ]
                exact hmark2
              · rw [h5, List.getD_cons_succ]
                exact hkey2
              · rcases hq1c with ⟨hq1i, hmk1, k1, hk1, hmk⟩ | hmem
                · left
                  have h6 : q1 - i = (q1 - (i + 1)) + 1 := by omega
                  refine ⟨by omega, ?_, k1, ?_, hmk⟩
                  · rw [h6, List.getD_cons_succ]
                    exact hmk1
                  · rw [h6, List.getD_cons_succ]
                    exact hk1
                · rcases List.mem_append.mp hmem with hold | hnew
                  · exact Or.inr hold
                  · left
                    have he := List.mem_singleton.mp hnew
                    have h1 : toMapKey key2 = toMapKey key := congrArg Prod.fst he
                    have h2 : q1 = i := congrArg Prod.snd he
                    have h6 : q1 - i = 0 := by omega
                    refine ⟨by omega, ?_, key, ?_, h1.symm⟩
                    · rw [h6, List.getD_cons_zero]
                      exact hdelf
                    · rw [h6, List.getD_cons_zero]
                      exact hk

end UniqueDupLemmas

/-- C4: in unique duplicate mode, on a keyed list merge (some overlay
item yields a key) with all involved keys comparable, (1) two base items
with equal map keys make the merge fail with a duplicate-key error whose
fields name a duplicated key, two conflicting base positions holding that
key, the list path extended by the offending index, and the document
index; and (2) with a duplicate-free base, two non-deletion-marked
overlay items with equal map keys make the merge fail the same way via
the pre-scan — before any overlay item is merged (nothing is assumed
about the keys of deletion-marked items, which the pre-scan ignores). -/
theorem c4_unique_duplicate_errors (cfg : Cfg) (f di : Nat) (p : Path)
    (base overlay : List Value)
    (hroot : cfg.rootMeta = none) (hmeta : currentMeta p = none)
    (hom : cfg.objectListMode = .unique)
    (hkeyed : (overlay.any fun it => (getPrimaryKey cfg none it).isSome) = true) :
    ((∀ it ∈ base, ∀ key, getPrimaryKey cfg none it = some key →
        isKeyComparable key = true) →
      DupWitness cfg [] base →
      ∃ ks q1 q2,
        mergeSlices f cfg di p base overlay
          = (.error (.dupKey ks q1 q2 (pathNames p ++ [toString q2]) di), p) ∧
        q1 < q2 ∧ q2 < base.length ∧
        ∃ key k1, getPrimaryKey cfg none (base.getD q1 .null) = some k1 ∧
          getPrimaryKey cfg none (base.getD q2 .null) = some key ∧
          toMapKey k1 = toMapKey key ∧ ks = keyString key) ∧
    ((∀ it ∈ base, ∀ key, getPrimaryKey cfg none it = some key →
        isKeyComparable key = true) →
      ¬ DupWitness cfg [] base →
      (∀ it ∈ overlay, isMarkedForDeletion cfg it = false →
        ∀ key, getPrimaryKey cfg none it = some key → isKeyComparable key = true) →
      PrescanWitness cfg [] overlay →
      ∃ ks q1 q2,
        mergeSlices f cfg di p base overlay
          = (.error (.dupKey ks q1 q2 (pathNames p ++ [toString q2]) di), p) ∧
        q1 < q2 ∧ q2 < overlay.length ∧
        isMarkedForDeletion cfg (overlay.getD q1 .null) = false ∧
        isMarkedForDeletion cfg (overlay.getD q2 .null) = false ∧
        ∃ key k1, getPrimaryKey cfg none (overlay.getD q1 .null) = some k1 ∧
          getPrimaryKey cfg none (overlay.getD q2 .null) = some key ∧
          toMapKey k1 = toMapKey key ∧ ks = keyString key) := by
  have hovne : overlay.isEmpty = false := by
    cases overlay with
    | nil => simp at hkeyed
    | cons a l => rfl
  constructor
  · intro hcomp hwit
    obtain ⟨ks, q1, q2, hres, hsound⟩ :=
      slicesBase_unique_dup (mergeValues f cfg di) cfg di hroot base 0 [] [] p rfl
        hcomp (by simp) hwit
    refine ⟨ks, q1, q2, ?_, ?_⟩
    · simp only [mergeSlices, slicesCore, hovne, Bool.false_eq_true, ite_false,
        hmeta, hkeyed, ite_true, Option.bind, hom, hres]
    · obtain ⟨_, hq2len, hq12, key, hkey, hks, hq1c⟩ := hsound
      rcases hq1c with ⟨_, k1, hk1, hmk⟩ | hmem
      · refine ⟨hq12, by omega, key, k1, ?_, ?_, hmk, hks⟩
        · simpa using hk1
        · simpa using hkey
      · cases hmem
  · intro hcomp hno hocomp hwit
    obtain ⟨idx2, hok, _⟩ :=
      slicesBase_unique_ok (mergeValues f cfg di) cfg di hroot base 0 [] [] p rfl
        hcomp (by simp) hno
    obtain ⟨ks, q1, q2, hpres, hsound⟩ :=
      overlayPrescan_dup cfg di hroot overlay 0 [] p hocomp (by simp) hwit
    refine ⟨ks, q1, q2, ?_, ?_⟩
    · simp only [mergeSlices, slicesCore, hovne, Bool.false_eq_true, ite_false,
        hmeta, hkeyed, ite_true, Option.bind, hom, hok, List.nil_append, hpres]
    · obtain ⟨_, hq2len, hq12, key, hmark2, hkey, hks, hq1c⟩ := hsound
      rcases hq1c with ⟨_, hmark1, k1, hk1, hmk⟩ | hmem
      · refine ⟨hq12, by omega, ?_, ?_, key, k1, ?_, ?_, hmk, hks⟩
        · simpa using hmark1
        · simpa using hmark2
        · simpa using hk1
        · simpa using hkey
      · cases hmem

/-- C4 witness: with primary key `id` and delete marker `del` in unique
mode, (1) a base [{id:1}, {id:1}] fails with a duplicate-key error at
positions 0 and 1, and (2) with base [{id:1}], an overlay
[{id:9, del:true}, {id:2}, {id:2}] — whose deletion-marked item is
ignored by the pre-scan — fails with a duplicate-key error at overlay
positions 1 and 2. -/
theorem c4_witness :
    mergeSlices 5 cfgDelete 1 []
        [Value.map [("id", Value.int 1)], Value.map [("id", Value.int 1)]]
        [Value.map [("id", Value.int 2)]]
      = (.error (.dupKey "1" 0 1 ["1"] 1), []) ∧
    mergeSlices 5 cfgDelete 1 []
        [Value.map [("id", Value.int 1)]]
        [Value.map [("id", Value.int 9), ("del", Value.bool true)],
         Value.map [("id", Value.int 2)], Value.map [("id", Value.int 2)]]
      = (.error (.dupKey "2" 1 2 ["2"] 1), []) := by
  constructor
  · obtain ⟨ks, q1, q2, hres, hq12, hq2len, key, k1, hk1, hkey, hmk, hks⟩ :=
      (c4_unique_duplicate_errors cfgDelete 5 1 []
        [Value.map [("id", Value.int 1)], Value.map [("id", Value.int 1)]]
        [Value.map [("id", Value.int 2)]]
        rfl rfl rfl (by decide)).1
        (by decide)
        (Or.inr ⟨0, 1, .single (Value.int 1), .single (Value.int 1),
          by decide, by decide, by decide, by decide, by decide⟩)
    -- pin down the existential output by decidable evaluation
    simp only [List.length_cons, List.length_nil] at hq2len
    have h1 : q1 = 0 ∧ q2 = 1 := by
      constructor <;> omega
    obtain ⟨rfl, rfl⟩ := h1
    have hkeyv : key = .single (Value.int 1) := by
      rw [show ([Value.map [("id", Value.int 1)],
        Value.map [("id", Value.int 1)]].getD 1 .null)
          = Value.map [("id", Value.int 1)] from rfl] at hkey
      have : getPrimaryKey cfgDelete none (Value.map [("id", Value.int 1)])
          = some (.single (Value.int 1)) := by decide
      rw [this] at hkey
      injection hkey with h
      exact h.symm
    subst hkeyv
    rw [hks] at hres
    exact hres
  · obtain ⟨ks, q1, q2, hres, hq12, hq2len, hm1, hm2, key, k1, hk1, hkey, hmk, hks⟩ :=
      (c4_unique_duplicate_errors cfgDelete 5 1 []
        [Value.map [("id", Value.int 1)]]
        [Value.map [("id", Value.int 9), ("del", Value.bool true)],
         Value.map [("id", Value.int 2)], Value.map [("id", Value.int 2)]]
        rfl rfl rfl (by decide)).2
        (by decide)
        (by
          intro hw
          rcases hw with ⟨j, key, hj, hkey, pr, hpr, _⟩ | ⟨j1, j2, k1, k2, h12, hj2, _⟩
          · cases hpr
          · simp only [List.length_cons, List.length_nil] at hj2
            omega)
        (by decide)
        (Or.inr ⟨1, 2, .single (Value.int 2), .single (Value.int 2),
          by decide, by decide, by decide, by decide, by decide, by decide, by decide⟩)
    simp only [List.length_cons, List.length_nil] at hq2len
    have hq2ne0 : q2 ≠ 0 := by
      intro h
      subst h
      exact absurd hm2 (by decide)
    have h1 : q2 = 2 := by
      have h4 : q2 = 1 ∨ q2 = 2 := by omega
      rcases h4 with h4 | h4
      · subst h4
        have h5 : q1 = 0 := by omega
        subst h5
        exact absurd hm1 (by decide)
      · exact h4
    subst h1
    have h2 : q1 = 1 := by
      have h3 : q1 = 0 ∨ q1 = 1 := by omega
      rcases h3 with h3 | h3
      · subst h3
        exact absurd hm1 (by decide)
      · exact h3
    subst h2
    have hkeyv : key = .single (Value.int 2) := by
      have h3 : getPrimaryKey cfgDelete none
          ([Value.map [("id", Value.int 9), ("del", Value.bool true)],
            Value.map [("id", Value.int 2)],
            Value.map [("id", Value.int 2)]].getD 2 .null)
          = some (.single (Value.int 2)) := by decide
      rw [h3] at hkey
      injection hkey with h
      exact h.symm
    subst hkeyv
    rw [hks] at hres
    exact hres

section NilFilterLemmas

theorem getPrimaryKey_some_map (cfg : Cfg) (m : Option Meta) (it : Value)
    (key : PKey) (h : getPrimaryKey cfg m it = some key) :
    ∃ mp, it = .map mp := by
  cases it <;> first | exact ⟨_, rfl⟩ | simp [getPrimaryKey] at h

theorem isMarkedForDeletion_emptyMarker (cfg : Cfg)
    (h : cfg.deleteMarkerKey = "") (v : Value) :
    isMarkedForDeletion cfg v = false := by
  cases v <;> simp [isMarkedForDeletion, h]

theorem mergeValues_map_ne_null (f : Nat) (cfg : Cfg) (di : Nat) (p : Path)
    (b : Value) (mp : List (String × Value)) (v : Value) (p2 : Path)
    (h : mergeValues f cfg di p b (.map mp) = (.ok v, p2)) : v ≠ .null := by
  cases f with
  | zero => cases h
  | succ f2 =>
      simp only [mergeValues] at h
      by_cases hb : b = Value.null
      · simp only [hb, ite_true, if_neg (by simp : ¬(Value.map mp = Value.null))] at h
        cases h
        simp
      · rw [if_neg (by simp : ¬(Value.map mp = Value.null)), if_neg hb] at h
        cases b with
        | map bm =>
            rcases h2 : mergeMapsGo (mergeValues f2 cfg di) cfg p bm mp with ⟨e, p3⟩
            simp only [h2] at h
            cases e with
            | ok res => cases h; simp
            | error e => cases h
        | null => exact absurd rfl hb
        | str s => cases h; simp
        | int n => cases h; simp
        | bool b2 => cases h; simp
        | list xs => cases h; simp

theorem getD_set_self (l : List Value) (j : Nat) (v d : Value)
    (hj : j < l.length) : (l.set j v).getD j d = v := by
  induction l generalizing j with
  | nil => simp at hj
  | cons hd tl ih =>
      cases j with
      | zero => rfl
      | succ j2 =>
          simp only [List.set_cons_succ, List.getD_cons_succ]
          exact ih j2 (by simpa using hj)

theorem getD_set_ne (l : List Value) (i j : Nat) (v d : Value)
    (hne : i ≠ j) : (l.set j v).getD i d = l.getD i d := by
  induction l generalizing i j with
  | nil => simp
  | cons hd tl ih =>
      cases j with
      | zero =>
          cases i with
          | zero => exact absurd rfl hne
          | succ i2 => simp [List.set_cons_zero, List.getD_cons_succ]
      | succ j2 =>
          cases i with
          | zero => simp [List.set_cons_succ, List.getD_cons_zero]
          | succ i2 =>
              simp only [List.set_cons_succ, List.getD_cons_succ]
              exact ih i2 j2 (fun h => hne (by omega))

theorem count_null_set (l : List Value) (j : Nat) (v : Value)
    (hv : v ≠ .null) (hold : l.getD j .null ≠ .null) :
    (l.set j v).count .null = l.count .null := by
  induction l generalizing j with
  | nil => simp
  | cons hd tl ih =>
      cases j with
      | zero =>
          rw [List.getD_cons_zero] at hold
          simp only [List.set_cons_zero]
          rw [List.count_cons, List.count_cons]
          have h1 : (v == Value.null) = false := by
            cases hv2 : v == Value.null
            · rfl
            · exact absurd (beq_iff_eq.mp hv2) hv
          have h2 : (hd == Value.null) = false := by
            cases hv2 : hd == Value.null
            · rfl
            · exact absurd (beq_iff_eq.mp hv2) hold
          rw [h1, h2]
      | succ j2 =>
          rw [List.getD_cons_succ] at hold
          simp only [List.set_cons_succ]
          rw [List.count_cons, List.count_cons, ih j2 hold]

theorem count_null_append (l1 l2 : List Value) :
    l1.count .null ≤ (l1 ++ l2).count .null := by
  rw [List.count_append]
  omega

theorem slicesBase_unique_fwd (mv : MergeFn) (cfg : Cfg) (di : Nat)
    (hroot : cfg.rootMeta = none) :
    ∀ (rem : List Value) (i : Nat) (res : List Value) (idx : List (Value × Nat)) (p : Path)
      (res2 : List Value) (idx2 : List (Value × Nat)) (p2 : Path),
      slicesBase mv cfg di .unique p i res idx rem = (.ok (res2, idx2), p2) →
      (∀ pr ∈ idx, pr.2 < res.length ∧ res.getD pr.2 .null ≠ .null) →
      res2 = res ++ rem ∧ p2 = p ∧
        (∀ pr ∈ idx2, pr.2 < res2.length ∧ res2.getD pr.2 .null ≠ .null) := by
  intro rem
  induction rem with
  | nil =>
      intro i res idx p res2 idx2 p2 h hinv
      simp only [slicesBase, Prod.mk.injEq, Except.ok.injEq] at h
      obtain ⟨⟨h1, h2⟩, h3⟩ := h
      subst h1; subst h2; subst h3
      exact ⟨by simp, rfl, fun pr hpr => by simpa using hinv pr hpr⟩
  | cons item rest ih =>
      intro i res idx p res2 idx2 p2 h hinv
      have hm : currentMeta (pushSeg cfg p (toString i)) = none :=
        currentMeta_pushSeg cfg hroot p (toString i)
      have hinv1 : ∀ pr ∈ idx, pr.2 < (res ++ [item]).length ∧
          (res ++ [item]).getD pr.2 .null ≠ .null := by
        intro pr hpr
        obtain ⟨h1, h2⟩ := hinv pr hpr
        refine ⟨by simp; omega, ?_⟩
        rw [List.getD_append _ _ _ _ h1]
        exact h2
      cases hk : getPrimaryKey cfg none item with
      | none =>
          simp only [slicesBase, hm, hk, popSeg_pushSeg] at h
          obtain ⟨h1, h2, h3⟩ := ih (i + 1) (res ++ [item]) idx p res2 idx2 p2 h hinv1
          exact ⟨by simpa using h1, h2, h3⟩
      | some key =>
          cases hcmp : isKeyComparable key with
          | false =>
              simp only [slicesBase, hm, hk, hcmp, Bool.false_eq_true, ite_false] at h
              simp at h
          | true =>
              have hmkc : isComparable (toMapKey key) = true :=
                toMapKey_comparable key hcmp
              cases hfind : idx.find? fun e => e.1 == toMapKey key with
              | some e =>
                  have hfq : idxFind idx (toMapKey key) = .ok (some e.2) := by
                    simp [idxFind, hmkc, hfind]
                  simp only [slicesBase, hm, hk, hcmp, ite_true, hfq] at h
                  simp at h
              | none =>
                  have hnf : ∀ pr ∈ idx, pr.1 ≠ toMapKey key := by
                    intro pr hpr he
                    have := List.find?_eq_none.mp hfind pr hpr
                    simp [he] at this
                  have hfq := idxFind_not_found idx _ hmkc hnf
                  have hput := idxPut_fresh idx _ res.length hmkc hnf
                  simp only [slicesBase, hm, hk, hcmp, ite_true, hfq, hput,
                    popSeg_pushSeg] at h
                  have hitem_ne : item ≠ .null :=
                    getPrimaryKey_ne_null cfg none item key hk
                  have hinv2 : ∀ pr ∈ idx ++ [(toMapKey key, res.length)],
                      pr.2 < (res ++ [item]).length ∧
                      (res ++ [item]).getD pr.2 .null ≠ .null := by
                    intro pr hpr
                    rcases List.mem_append.mp hpr with hold | hnew
                    · exact hinv1 pr hold
                    · rw [List.mem_singleton.mp hnew]
                      refine ⟨by simp, ?_⟩
                      rw [List.getD_append_right _ _ _ _ (by omega)]
                      simpa using hitem_ne
                  obtain ⟨h1, h2, h3⟩ :=
                    ih (i + 1) (res ++ [item]) (idx ++ [(toMapKey key, res.length)])
                      p res2 idx2 p2 h hinv2
                  exact ⟨by simpa using h1, h2, h3⟩

theorem slicesOverlay_nullcount (mv : MergeFn) (cfg : Cfg) (di : Nat)
    (om : ObjectListMode) (hroot : cfg.rootMeta = none)
    (hdel : cfg.deleteMarkerKey = "")
    (hmv : ∀ p b mp v p2, mv p b (.map mp) = (.ok v, p2) → v ≠ .null) :
    ∀ (rem : List Value) (i : Nat) (res : List Value) (idx : List (Value × Nat)) (p : Path)
      (res2 : List Value) (p2 : Path),
      slicesOverlay mv cfg di om p i res idx rem = (.ok res2, p2) →
      (∀ pr ∈ idx, pr.2 < res.length ∧ res.getD pr.2 .null ≠ .null) →
      res.count .null ≤ res2.count .null := by
  intro rem
  induction rem with
  | nil =>
      intro i res idx p res2 p2 h _
      simp only [slicesOverlay, Prod.mk.injEq, Except.ok.injEq] at h
      rw [h.1]
  | cons item rest ih =>
      intro i res idx p res2 p2 h hinv
      have hm : currentMeta (pushSeg cfg p (toString i)) = none :=
        currentMeta_pushSeg cfg hroot p (toString i)
      have hmrk : isMarkedForDeletion cfg item = false :=
        isMarkedForDeletion_emptyMarker cfg hdel item
      have hinv1 : ∀ pr ∈ idx, pr.2 < (res ++ [item]).length ∧
          (res ++ [item]).getD pr.2 .null ≠ .null := by
        intro pr hpr
        obtain ⟨h1, h2⟩ := hinv pr hpr
        refine ⟨by simp; omega, ?_⟩
        rw [List.getD_append _ _ _ _ h1]
        exact h2
      cases hk : getPrimaryKey cfg none item with
      | none =>
          simp only [slicesOverlay, hmrk, Bool.false_eq_true, ite_false, hm, hk,
            popSeg_pushSeg] at h
          calc res.count .null ≤ (res ++ [item]).count .null := count_null_append res [item]
            _ ≤ res2.count .null := ih (i + 1) (res ++ [item]) idx p res2 p2 h hinv1
      | some key =>
          obtain ⟨mp, hmp⟩ := getPrimaryKey_some_map cfg none item key hk
          by_cases hchk : om ≠ ObjectListMode.unique ∧ ¬ isKeyComparable key = true
          · simp only [slicesOverlay, hmrk, Bool.false_eq_true, ite_false, hm, hk] at h
            rw [if_pos hchk] at h
            simp at h
          · cases hmkc : isComparable (toMapKey key) with
            | false =>
                have hfq : idxFind idx (toMapKey key) = .error .panicHash := by
                  simp [idxFind, hmkc]
                simp only [slicesOverlay, hmrk, Bool.false_eq_true, ite_false, hm, hk,
                  hchk, ite_false, hfq] at h
                simp at h
            | true =>
                cases hfind : idx.find? fun e => e.1 == toMapKey key with
                | some e =>
                    have hfq : idxFind idx (toMapKey key) = .ok (some e.2) := by
                      simp [idxFind, hmkc, hfind]
                    have hemem : e ∈ idx := List.mem_of_find?_eq_some hfind
                    obtain ⟨hlt, hnn⟩ := hinv e hemem
                    rcases hmres : mv (pushSeg cfg (popSeg (pushSeg cfg p (toString i)))
                        (toString e.2)) (res.getD e.2 .null) item with ⟨er, p3⟩
                    cases er with
                    | error e2 =>
                        simp only [slicesOverlay, hmrk, Bool.false_eq_true, ite_false,
                          hm, hk, hchk, ite_false, hfq, hmres] at h
                        simp at h
                    | ok merged =>
                        have hmerged : merged ≠ .null := by
                          rw [hmp] at hmres
                          exact hmv _ _ _ _ _ hmres
                        simp only [slicesOverlay, hmrk, Bool.false_eq_true, ite_false,
                          hm, hk, hchk, ite_false, hfq, hmres] at h
                        have hinv2 : ∀ pr ∈ idx, pr.2 < (res.set e.2 merged).length ∧
                            (res.set e.2 merged).getD pr.2 .null ≠ .null := by
                          intro pr hpr
                          obtain ⟨h1, h2⟩ := hinv pr hpr
                          refine ⟨by simpa using h1, ?_⟩
                          by_cases heq : pr.2 = e.2
                          · rw [heq, getD_set_self res e.2 merged .null hlt]
                            exact hmerged
                          · rw [getD_set_ne res pr.2 e.2 merged .null heq]
                            exact h2
                        calc res.count .null
                            = (res.set e.2 merged).count .null :=
                              (count_null_set res e.2 merged hmerged hnn).symm
                          _ ≤ res2.count .null :=
                              ih (i + 1) (res.set e.2 merged) idx (popSeg p3) res2 p2 h hinv2
                | none =>
                    have hnf : ∀ pr ∈ idx, pr.1 ≠ toMapKey key := by
                      intro pr hpr he
                      have := List.find?_eq_none.mp hfind pr hpr
                      simp [he] at this
                    have hfq := idxFind_not_found idx _ hmkc hnf
                    have hput := idxPut_fresh idx _ res.length hmkc hnf
                    simp only [slicesOverlay, hmrk, Bool.false_eq_true, ite_false, hm,
                      hk, hchk, ite_false, hfq, hput, popSeg_pushSeg] at h
                    have hinv2 : ∀ pr ∈ idx ++ [(toMapKey key, res.length)],
                        pr.2 < (res ++ [item]).length ∧
                        (res ++ [item]).getD pr.2 .null ≠ .null := by
                      intro pr hpr
                      rcases List.mem_append.mp hpr with hold | hnew
                      · exact hinv1 pr hold
                      · rw [List.mem_singleton.mp hnew]
                        refine ⟨by simp, ?_⟩
                        rw [List.getD_append_right _ _ _ _ (by omega)]
                        simp [hmp]
                    calc res.count .null
                        ≤ (res ++ [item]).count .null := count_null_append res [item]
                      _ ≤ res2.count .null :=
                          ih (i + 1) (res ++ [item]) (idx ++ [(toMapKey key, res.length)])
                            p res2 p2 h hinv2

end NilFilterLemmas

/-- C10: in a keyed list merge (some overlay item yields a flat primary
key), when the final nil filter runs — a delete-marker key is configured
or consolidate mode is active — a successful merge result contains no
null item, so every literal null in the base list is silently dropped;
with no delete marker and unique mode the filter is skipped and the base
list's null items survive into the result. -/
theorem c10_nil_filter (cfg : Cfg) (f di : Nat) (p : Path)
    (base overlay : List Value)
    (hroot : cfg.rootMeta = none) (hmeta : currentMeta p = none)
    (hkeyed : (overlay.any fun it => (getPrimaryKey cfg none it).isSome) = true) :
    (∀ r p2, (cfg.deleteMarkerKey ≠ "" ∨ cfg.objectListMode = .consolidate) →
        mergeSlices f cfg di p base overlay = (.ok r, p2) → Value.null ∉ r) ∧
    (∀ r p2, cfg.deleteMarkerKey = "" → cfg.objectListMode = .unique →
        mergeSlices f cfg di p base overlay = (.ok r, p2) →
        base.count .null ≤ r.count .null) := by
  have hovne : overlay.isEmpty = false := by
    cases overlay with
    | nil => simp at hkeyed
    | cons a l => rfl
  constructor
  · intro r p2 hfil hok
    simp only [mergeSlices, slicesCore, hovne, Bool.false_eq_true, ite_false, hmeta,
      hkeyed, ite_true, Option.bind] at hok
    rcases h1 : slicesBase (mergeValues f cfg di) cfg di cfg.objectListMode p 0 [] [] base
      with ⟨e1, q1⟩
    simp only [h1] at hok
    cases e1 with
    | error e => simp at hok
    | ok pair =>
        rcases pair with ⟨res, idx⟩
        cases hom2 : cfg.objectListMode with
        | unique =>
            simp only [hom2] at hok
            rcases h2 : overlayPrescan cfg di q1 0 [] overlay with ⟨e2, q2⟩
            simp only [h2] at hok
            cases e2 with
            | error e => simp at hok
            | ok u =>
                rcases h3 : slicesOverlay (mergeValues f cfg di) cfg di .unique q2 0
                    res idx overlay with ⟨e3, q3⟩
                simp only [h3] at hok
                cases e3 with
                | error e => simp at hok
                | ok res2 =>
                    dsimp only at hok
                    have hcond : cfg.deleteMarkerKey ≠ "" ∨
                        ObjectListMode.unique = ObjectListMode.consolidate := by
                      rcases hfil with h | h
                      · exact Or.inl h
                      · rw [hom2] at h
                        cases h
                    rw [if_pos hcond] at hok
                    simp only [Prod.mk.injEq, Except.ok.injEq] at hok
                    obtain ⟨h4, _⟩ := hok
                    subst h4
                    intro hmem
                    have := List.mem_filter.mp hmem
                    simp at this
        | consolidate =>
            simp only [hom2] at hok
            rcases h3 : slicesOverlay (mergeValues f cfg di) cfg di .consolidate q1 0
                res idx overlay with ⟨e3, q3⟩
            simp only [h3] at hok
            cases e3 with
            | error e => simp at hok
            | ok res2 =>
                dsimp only at hok
                rw [if_pos (Or.inr trivial)] at hok
                simp only [Prod.mk.injEq, Except.ok.injEq] at hok
                obtain ⟨h4, _⟩ := hok
                subst h4
                intro hmem
                have := List.mem_filter.mp hmem
                simp at this
  · intro r p2 hdel hom2 hok
    simp only [mergeSlices, slicesCore, hovne, Bool.false_eq_true, ite_false, hmeta,
      hkeyed, ite_true, Option.bind, hom2] at hok
    rcases h1 : slicesBase (mergeValues f cfg di) cfg di .unique p 0 [] [] base
      with ⟨e1, q1⟩
    simp only [h1] at hok
    cases e1 with
    | error e => simp at hok
    | ok pair =>
        rcases pair with ⟨res, idx⟩
        obtain ⟨hres, hq1, hinv⟩ :=
          slicesBase_unique_fwd (mergeValues f cfg di) cfg di hroot base 0 [] [] p
            res idx q1 h1 (by simp)
        rcases h2 : overlayPrescan cfg di q1 0 [] overlay with ⟨e2, q2⟩
        simp only [h2] at hok
        cases e2 with
        | error e => simp at hok
        | ok u =>
            rcases h3 : slicesOverlay (mergeValues f cfg di) cfg di .unique q2 0
                res idx overlay with ⟨e3, q3⟩
            simp only [h3] at hok
            cases e3 with
            | error e => simp at hok
            | ok res2 =>
                dsimp only at hok
                have hcond : ¬ (cfg.deleteMarkerKey ≠ "" ∨
                    ObjectListMode.unique = ObjectListMode.consolidate) := by
                  rintro (h | h)
                  · exact h hdel
                  · cases h
                rw [if_neg hcond] at hok
                simp only [Prod.mk.injEq, Except.ok.injEq] at hok
                obtain ⟨h4, _⟩ := hok
                subst h4
                have hbase : base.count .null = res.count .null := by
                  rw [hres]
                  simp
                rw [hbase]
                exact slicesOverlay_nullcount (mergeValues f cfg di) cfg di .unique
                  hroot hdel
                  (fun p3 b mp v p4 h => mergeValues_map_ne_null f cfg di p3 b mp v p4 h)
                  overlay 0 res idx q2 res2 q3 h3 hinv

/-- C10 witness: with delete marker `del` configured (unique mode), the
literal null in the base list is dropped from the successful keyed merge;
with no marker configured, the same null survives. -/
theorem c10_witness :
    Value.null ∉
      [Value.map [("id", Value.int 1), ("x", Value.int 2)]] ∧
    ([Value.null, Value.map [("id", Value.int 1)]].count Value.null
      ≤ [Value.null,
          Value.map [("id", Value.int 1), ("x", Value.int 2)]].count Value.null) :=
  ⟨(c10_nil_filter cfgDelete 5 1 []
      [Value.null, Value.map [("id", Value.int 1)]]
      [Value.map [("id", Value.int 1), ("x", Value.int 2)]]
      rfl rfl (by decide)).1
      [Value.map [("id", Value.int 1), ("x", Value.int 2)]] []
      (Or.inl (by decide)) rfl,
   (c10_nil_filter cfgFlat 5 1 []
      [Value.null, Value.map [("id", Value.int 1)]]
      [Value.map [("id", Value.int 1), ("x", Value.int 2)]]
      rfl rfl (by decide)).2
      [Value.null, Value.map [("id", Value.int 1), ("x", Value.int 2)]] []
      rfl rfl rfl⟩

section SelfMergeLemmas

theorem updateA_self : ∀ (l : List (String × Value)) (k : String) (v : Value),
    lookupA l k = some v → updateA l k v = l := by
  intro l
  induction l with
  | nil => intro k v h; cases h
  | cons pr rest ih =>
      intro k v h
      rcases pr with ⟨k2, v2⟩
      by_cases he : k2 = k
      · subst he
        simp only [lookupA, if_pos rfl] at h
        injection h with h
        simp [updateA, h]
      · simp only [lookupA, if_neg he] at h
        simp [updateA, he, ih k v h]

theorem sizeOf_mem_fields : ∀ (es : List (String × Value)) (k : String) (v : Value),
    (k, v) ∈ es → sizeOf v < sizeOf es := by
  intro es
  induction es with
  | nil => intro k v h; cases h
  | cons pr rest ih =>
      intro k v h
      rcases List.mem_cons.mp h with he | hm
      · rw [← he]
        simp
        omega
      · have := ih k v hm
        simp
        omega

theorem noListsFields_mem : ∀ (es : List (String × Value)) (k : String) (v : Value),
    noListsFields es = true → (k, v) ∈ es → noLists v = true := by
  intro es
  induction es with
  | nil => intro k v _ h; cases h
  | cons pr rest ih =>
      intro k v hn h
      rcases pr with ⟨k2, v2⟩
      simp only [noListsFields, Bool.and_eq_true] at hn
      rcases List.mem_cons.mp h with he | hm
      · injection he with he1 he2
        subst he2
        exact hn.1
      · exact ih k v hn.2 hm

theorem wfFields_mem : ∀ (es : List (String × Value)) (k : String) (v : Value),
    wfFields es = true → (k, v) ∈ es → wfKeys v = true := by
  intro es
  induction es with
  | nil => intro k v _ h; cases h
  | cons pr rest ih =>
      intro k v hw h
      rcases pr with ⟨k2, v2⟩
      simp only [wfFields, Bool.and_eq_true] at hw
      rcases List.mem_cons.mp h with he | hm
      · injection he with he1 he2
        subst he2
        exact hw.1.2
      · exact ih k v hw.2 hm

theorem wfFields_lookup : ∀ (es : List (String × Value)) (k : String) (v : Value),
    wfFields es = true → (k, v) ∈ es → lookupA es k = some v := by
  intro es
  induction es with
  | nil => intro k v _ h; cases h
  | cons pr rest ih =>
      intro k v hw h
      rcases pr with ⟨k2, v2⟩
      simp only [wfFields, Bool.and_eq_true] at hw
      obtain ⟨⟨hnone, _⟩, hrest⟩ := hw
      rcases List.mem_cons.mp h with he | hm
      · injection he with he1 he2
        subst he1
        subst he2
        simp [lookupA]
      · have h4 : ¬ k2 = k := by
          intro he2
          have h5 := ih k v hrest hm
          rw [he2, h5] at hnone
          simp at hnone
        simp only [lookupA, if_neg h4]
        exact ih k v hrest hm

theorem mergeValues_self (cfg : Cfg) (hdel : cfg.deleteMarkerKey = "") :
    ∀ (f : Nat) (x : Value), sizeOf x ≤ f → noLists x = true → wfKeys x = true →
      ∀ (di : Nat) (p : Path), mergeValues f cfg di p x x = (.ok x, p) := by
  intro f
  induction f with
  | zero =>
      intro x hx
      exact absurd hx (by cases x <;> simp)
  | succ f2 ih =>
      intro x hx hnl hwf di p
      cases x with
      | null => simp [mergeValues]
      | str s => simp [mergeValues]
      | int n => simp [mergeValues]
      | bool b => simp [mergeValues]
      | list xs => simp [noLists] at hnl
      | map es =>
          have hsize : sizeOf es ≤ f2 := by
            simp at hx
            omega
          have hloop : ∀ (rem res : List (String × Value)),
              (∀ k v, (k, v) ∈ rem → lookupA res k = some v) →
              (∀ k v, (k, v) ∈ rem → (k, v) ∈ es) →
              ∀ p2, mergeMapsGo (mergeValues f2 cfg di) cfg p2 res rem = (.ok res, p2) := by
            intro rem
            induction rem with
            | nil => intro res _ _ p2; simp [mergeMapsGo]
            | cons pr rest ihr =>
                rcases pr with ⟨k, v⟩
                intro res hlk hsub p2
                have hmem : (k, v) ∈ es := hsub k v (by simp)
                have hvsize : sizeOf v ≤ f2 := by
                  have := sizeOf_mem_fields es k v hmem
                  omega
                have hvn : noLists v = true :=
                  noListsFields_mem es k v (by simpa [noLists] using hnl) hmem
                have hvw : wfKeys v = true :=
                  wfFields_mem es k v (by simpa [wfKeys] using hwf) hmem
                have hmv := ih v hvsize hvn hvw di (pushSeg cfg p2 k)
                have hmarked : isMarkedForDeletion cfg v = false :=
                  isMarkedForDeletion_emptyMarker cfg hdel v
                have hlkk : lookupA res k = some v := hlk k v (by simp)
                simp only [mergeMapsGo, hmarked, Bool.false_eq_true, ite_false, hlkk, hmv,
                  popSeg_pushSeg, updateA_self res k v hlkk]
                exact ihr res (fun k2 v2 h2 => hlk k2 v2 (List.mem_cons_of_mem _ h2))
                  (fun k2 v2 h2 => hsub k2 v2 (List.mem_cons_of_mem _ h2)) p2
          have hes := hloop es es
            (fun k v hm => wfFields_lookup es k v (by simpa [wfKeys] using hwf) hm)
            (fun _ _ h => h) p
          simp only [mergeValues, if_neg (by simp : ¬(Value.map es = Value.null)), hes]

end SelfMergeLemmas

/-- C5 (amended): self-merge is idempotent for list-free documents when
no delete-marker key is configured: for every well-formed document built
of scalars and maps only, merging it with itself returns it unchanged
(list-containing documents are excluded by the counterexample, whose
concat-mode self-merge duplicates list items). -/
theorem c5_selfmerge_idempotent (cfg : Cfg) (f : Nat) (x : Value)
    (hdel : cfg.deleteMarkerKey = "") (hnl : noLists x = true)
    (hwf : wfKeys x = true) (hf : sizeOf x ≤ f) :
    mergeUnstructured f cfg [x, x] = .ok x := by
  have h1 : mergeValues f cfg 0 [] .null x = (.ok x, []) := by
    cases f with
    | zero => exact absurd hf (by cases x <;> simp)
    | succ f2 =>
        by_cases hx : x = Value.null
        · subst hx
          simp [mergeValues]
        · simp [mergeValues, hx]
  have h2 := mergeValues_self cfg hdel f x hf hnl hwf 1 []
  have h3 : stripDeleteMarker cfg x = x := by
    unfold stripDeleteMarker
    rw [if_pos hdel]
  simp only [mergeUnstructured, mergeDocs, h1, h2, h3]

/-- C5 witness: a nested scalar-and-map document self-merges to itself. -/
theorem c5_witness :
    mergeUnstructured 100000 cfgFlat
        [Value.map [("a", Value.int 1), ("b", Value.map [("c", Value.str "z")])],
         Value.map [("a", Value.int 1), ("b", Value.map [("c", Value.str "z")])]]
      = .ok (Value.map [("a", Value.int 1), ("b", Value.map [("c", Value.str "z")])]) :=
  c5_selfmerge_idempotent cfgFlat 100000
    (Value.map [("a", Value.int 1), ("b", Value.map [("c", Value.str "z")])])
    rfl (by decide) (by decide) (by decide)

section StateIrrelLemmas

theorem stripDeleteMarker_disabled (cfg : Cfg) (h : cfg.deleteMarkerKey = "")
    (v : Value) : stripDeleteMarker cfg v = v := by
  unfold stripDeleteMarker
  rw [if_pos h]

theorem mergeValues_nil_base (f : Nat) (cfg : Cfg) (di : Nat) (p : Path) (x : Value) :
    mergeValues (f + 1) cfg di p .null x = (.ok x, p) := by
  by_cases hx : x = Value.null
  · subst hx
    simp [mergeValues]
  · simp [mergeValues, hx]

theorem mergeMapsGo_stateIrrel (mv1 mv2 : MergeFn) (cfg : Cfg)
    (hroot : cfg.rootMeta = none)
    (hmv : ∀ p1 p2 b o, currentMeta p1 = currentMeta p2 →
      okPart (mv1 p1 b o) = okPart (mv2 p2 b o)) :
    ∀ (rem : List (String × Value)) (p1 p2 : Path) (res : List (String × Value)),
      okPart (mergeMapsGo mv1 cfg p1 res rem)
        = okPart (mergeMapsGo mv2 cfg p2 res rem) := by
  intro rem
  induction rem with
  | nil => intro p1 p2 res; rfl
  | cons pr rest ih =>
      rcases pr with ⟨k, v⟩
      intro p1 p2 res
      by_cases hmrk : isMarkedForDeletion cfg v = true
      · simp only [mergeMapsGo, hmrk, ite_true]
        exact ih _ _ _
      · have hmf : isMarkedForDeletion cfg v = false := by
          revert hmrk; cases isMarkedForDeletion cfg v <;> simp
        cases hlk : lookupA res k with
        | none =>
            simp only [mergeMapsGo, hmf, Bool.false_eq_true, ite_false, hlk]
            exact ih _ _ _
        | some bv =>
            have hcm : currentMeta (pushSeg cfg p1 k) = currentMeta (pushSeg cfg p2 k) := by
              rw [currentMeta_pushSeg cfg hroot, currentMeta_pushSeg cfg hroot]
            have h1 := hmv (pushSeg cfg p1 k) (pushSeg cfg p2 k) bv v hcm
            rcases hr1 : mv1 (pushSeg cfg p1 k) bv v with ⟨e1, q1⟩
            rcases hr2 : mv2 (pushSeg cfg p2 k) bv v with ⟨e2, q2⟩
            rw [hr1, hr2] at h1
            simp only [mergeMapsGo, hmf, Bool.false_eq_true, ite_false, hlk, hr1, hr2]
            cases e1 with
            | error er1 =>
                cases e2 with
                | error er2 => rfl
                | ok m2 => exact absurd h1 (by simp [okPart, Except.toOption])
            | ok m1 =>
                cases e2 with
                | error er2 => exact absurd h1 (by simp [okPart, Except.toOption])
                | ok m2 =>
                    have hm12 : m1 = m2 := by simpa [okPart, Except.toOption] using h1
                    subst hm12
                    exact ih _ _ _

theorem slicesBase_stateIrrel (mv1 mv2 : MergeFn) (cfg : Cfg) (di1 di2 : Nat)
    (om : ObjectListMode) (hroot : cfg.rootMeta = none)
    (hmv : ∀ p1 p2 b o, currentMeta p1 = currentMeta p2 →
      okPart (mv1 p1 b o) = okPart (mv2 p2 b o)) :
    ∀ (rem : List Value) (i : Nat) (p1 p2 : Path) (res : List Value)
      (idx : List (Value × Nat)),
      okPart (slicesBase mv1 cfg di1 om p1 i res idx rem)
        = okPart (slicesBase mv2 cfg di2 om p2 i res idx rem) := by
  intro rem
  induction rem with
  | nil => intro i p1 p2 res idx; rfl
  | cons item rest ih =>
      intro i p1 p2 res idx
      have hm1 : currentMeta (pushSeg cfg p1 (toString i)) = none :=
        currentMeta_pushSeg cfg hroot p1 (toString i)
      have hm2 : currentMeta (pushSeg cfg p2 (toString i)) = none :=
        currentMeta_pushSeg cfg hroot p2 (toString i)
      cases hk : getPrimaryKey cfg none item with
      | none =>
          simp only [slicesBase, hm1, hm2, hk]
          exact ih _ _ _ _ _
      | some key =>
          cases hcmp : isKeyComparable key with
          | false =>
              simp only [slicesBase, hm1, hm2, hk, hcmp, Bool.false_eq_true, ite_false]
              rfl
          | true =>
              cases hfq : idxFind idx (toMapKey key) with
              | error e =>
                  simp only [slicesBase, hm1, hm2, hk, hcmp, ite_true, hfq]
                  rfl
              | ok found =>
                  cases found with
                  | none =>
                      cases hput : idxPut idx (toMapKey key) res.length with
                      | error e =>
                          simp only [slicesBase, hm1, hm2, hk, hcmp, ite_true, hfq, hput]
                          rfl
                      | ok idx2 =>
                          simp only [slicesBase, hm1, hm2, hk, hcmp, ite_true, hfq, hput]
                          exact ih _ _ _ _ _
                  | some existingIdx =>
                      cases om with
                      | unique =>
                          simp only [slicesBase, hm1, hm2, hk, hcmp, ite_true, hfq]
                          rfl
                      | consolidate =>
                          have hcm : currentMeta (pushSeg cfg (popSeg (pushSeg cfg p1
                                (toString i))) (toString existingIdx))
                              = currentMeta (pushSeg cfg (popSeg (pushSeg cfg p2
                                (toString i))) (toString existingIdx)) := by
                            rw [currentMeta_pushSeg cfg hroot, currentMeta_pushSeg cfg hroot]
                          have h1 := hmv _ _ (res.getD existingIdx .null) item hcm
                          rcases hr1 : mv1 (pushSeg cfg (popSeg (pushSeg cfg p1 (toString i)))
                              (toString existingIdx)) (res.getD existingIdx .null) item
                            with ⟨e1, q1⟩
                          rcases hr2 : mv2 (pushSeg cfg (popSeg (pushSeg cfg p2 (toString i)))
                              (toString existingIdx)) (res.getD existingIdx .null) item
                            with ⟨e2, q2⟩
                          rw [hr1, hr2] at h1
                          simp only [slicesBase, hm1, hm2, hk, hcmp, ite_true, hfq, hr1, hr2]
                          cases e1 with
                          | error er1 =>
                              cases e2 with
                              | error er2 => rfl
                              | ok m2 => exact absurd h1 (by simp [okPart, Except.toOption])
                          | ok m1 =>
                              cases e2 with
                              | error er2 => exact absurd h1 (by simp [okPart, Except.toOption])
                              | ok m2 =>
                                  have hm12 : m1 = m2 := by simpa [okPart, Except.toOption] using h1
                                  subst hm12
                                  exact ih _ _ _ _ _

theorem slicesOverlay_stateIrrel (mv1 mv2 : MergeFn) (cfg : Cfg) (di1 di2 : Nat)
    (om : ObjectListMode) (hroot : cfg.rootMeta = none)
    (hmv : ∀ p1 p2 b o, currentMeta p1 = currentMeta p2 →
      okPart (mv1 p1 b o) = okPart (mv2 p2 b o)) :
    ∀ (rem : List Value) (i : Nat) (p1 p2 : Path) (res : List Value)
      (idx : List (Value × Nat)),
      okPart (slicesOverlay mv1 cfg di1 om p1 i res idx rem)
        = okPart (slicesOverlay mv2 cfg di2 om p2 i res idx rem) := by
  intro rem
  induction rem with
  | nil => intro i p1 p2 res idx; rfl
  | cons item rest ih =>
      intro i p1 p2 res idx
      have hm1 : currentMeta (pushSeg cfg p1 (toString i)) = none :=
        currentMeta_pushSeg cfg hroot p1 (toString i)
      have hm2 : currentMeta (pushSeg cfg p2 (toString i)) = none :=
        currentMeta_pushSeg cfg hroot p2 (toString i)
      by_cases hmrk : isMarkedForDeletion cfg item = true
      · cases hk : getPrimaryKey cfg none item with
        | none =>
            simp only [slicesOverlay, hmrk, ite_true, hm1, hm2, hk]
            exact ih _ _ _ _ _
        | some key =>
            cases hfq : idxFind idx (toMapKey key) with
            | error e =>
                simp only [slicesOverlay, hmrk, ite_true, hm1, hm2, hk, hfq]
                rfl
            | ok found =>
                cases found with
                | none =>
                    simp only [slicesOverlay, hmrk, ite_true, hm1, hm2, hk, hfq]
                    exact ih _ _ _ _ _
                | some j =>
                    cases her : idxErase idx (toMapKey key) with
                    | error e =>
                        simp only [slicesOverlay, hmrk, ite_true, hm1, hm2, hk, hfq, her]
                        rfl
                    | ok idx2 =>
                        simp only [slicesOverlay, hmrk, ite_true, hm1, hm2, hk, hfq, her]
                        exact ih _ _ _ _ _
      · have hmf : isMarkedForDeletion cfg item = false := by
          revert hmrk; cases isMarkedForDeletion cfg item <;> simp
        cases hk : getPrimaryKey cfg none item with
        | none =>
            simp only [slicesOverlay, hmf, Bool.false_eq_true, ite_false, hm1, hm2, hk]
            exact ih _ _ _ _ _
        | some key =>
            by_cases hchk : om ≠ ObjectListMode.unique ∧ ¬ isKeyComparable key = true
            · simp only [slicesOverlay, hmf, Bool.false_eq_true, ite_false, hm1, hm2, hk]
              rw [if_pos hchk, if_pos hchk]
              rfl
            · simp only [slicesOverlay, hmf, Bool.false_eq_true, ite_false, hm1, hm2, hk]
              rw [if_neg hchk, if_neg hchk]
              cases hfq : idxFind idx (toMapKey key) with
              | error e => rfl
              | ok found =>
                  cases found with
                  | none =>
                      cases hput : idxPut idx (toMapKey key) res.length with
                      | error e => rfl
                      | ok idx2 =>
                          simp only [popSeg_pushSeg]
                          exact ih _ _ _ _ _
                  | some j =>
                      have hcm : currentMeta (pushSeg cfg (popSeg (pushSeg cfg p1
                            (toString i))) (toString j))
                          = currentMeta (pushSeg cfg (popSeg (pushSeg cfg p2
                            (toString i))) (toString j)) := by
                        rw [currentMeta_pushSeg cfg hroot, currentMeta_pushSeg cfg hroot]
                      have h1 := hmv _ _ (res.getD j .null) item hcm
                      rcases hr1 : mv1 (pushSeg cfg (popSeg (pushSeg cfg p1 (toString i)))
                          (toString j)) (res.getD j .null) item with ⟨e1, q1⟩
                      rcases hr2 : mv2 (pushSeg cfg (popSeg (pushSeg cfg p2 (toString i)))
                          (toString j)) (res.getD j .null) item with ⟨e2, q2⟩
                      rw [hr1, hr2] at h1
                      dsimp only
                      rw [hr1, hr2]
                      cases e1 with
                      | error er1 =>
                          cases e2 with
                          | error er2 => rfl
                          | ok m2 => exact absurd h1 (by simp [okPart, Except.toOption])
                      | ok m1 =>
                          cases e2 with
                          | error er2 => exact absurd h1 (by simp [okPart, Except.toOption])
                          | ok m2 =>
                              have hm12 : m1 = m2 := by simpa [okPart, Except.toOption] using h1
                              subst hm12
                              exact ih _ _ _ _ _

theorem overlayPrescan_stateIrrel (cfg : Cfg) (di1 di2 : Nat)
    (hroot : cfg.rootMeta = none) :
    ∀ (rem : List Value) (i : Nat) (p1 p2 : Path) (keys : List (Value × Nat)),
      okPart (overlayPrescan cfg di1 p1 i keys rem)
        = okPart (overlayPrescan cfg di2 p2 i keys rem) := by
  intro rem
  induction rem with
  | nil => intro i p1 p2 keys; rfl
  | cons item rest ih =>
      intro i p1 p2 keys
      have hm1 : currentMeta (pushSeg cfg p1 (toString i)) = none :=
        currentMeta_pushSeg cfg hroot p1 (toString i)
      have hm2 : currentMeta (pushSeg cfg p2 (toString i)) = none :=
        currentMeta_pushSeg cfg hroot p2 (toString i)
      by_cases hmrk : isMarkedForDeletion cfg item = true
      · simp only [overlayPrescan, hmrk, ite_true]
        exact ih _ _ _ _
      · have hmf : isMarkedForDeletion cfg item = false := by
          revert hmrk; cases isMarkedForDeletion cfg item <;> simp
        cases hk : getPrimaryKey cfg none item with
        | none =>
            simp only [overlayPrescan, hmf, Bool.false_eq_true, ite_false, hm1, hm2, hk]
            exact ih _ _ _ _
        | some key =>
            cases hcmp : isKeyComparable key with
            | false =>
                simp only [overlayPrescan, hmf, Bool.false_eq_true, ite_false, hm1, hm2,
                  hk, hcmp]
                rfl
            | true =>
                cases hfq : idxFind keys (toMapKey key) with
                | error e =>
                    simp only [overlayPrescan, hmf, Bool.false_eq_true, ite_false, hm1,
                      hm2, hk, hcmp, ite_true, hfq]
                    rfl
                | ok found =>
                    cases found with
                    | some firstIdx =>
                        simp only [overlayPrescan, hmf, Bool.false_eq_true, ite_false,
                          hm1, hm2, hk, hcmp, ite_true, hfq]
                        rfl
                    | none =>
                        cases hput : idxPut keys (toMapKey key) i with
                        | error e =>
                            simp only [overlayPrescan, hmf, Bool.false_eq_true, ite_false,
                              hm1, hm2, hk, hcmp, ite_true, hfq, hput]
                            rfl
                        | ok keys2 =>
                            simp only [overlayPrescan, hmf, Bool.false_eq_true, ite_false,
                              hm1, hm2, hk, hcmp, ite_true, hfq, hput]
                            exact ih _ _ _ _

theorem slicesCore_stateIrrel (mv1 mv2 : MergeFn) (cfg : Cfg) (di1 di2 : Nat)
    (hroot : cfg.rootMeta = none)
    (hmv : ∀ p1 p2 b o, currentMeta p1 = currentMeta p2 →
      okPart (mv1 p1 b o) = okPart (mv2 p2 b o)) :
    ∀ (p1 p2 : Path) (base overlay : List Value),
      currentMeta p1 = currentMeta p2 →
      okPart (slicesCore mv1 cfg di1 p1 base overlay)
        = okPart (slicesCore mv2 cfg di2 p2 base overlay) := by
  intro p1 p2 base overlay hm
  by_cases hov : overlay.isEmpty = true
  · simp only [slicesCore, hov, ite_true]
    rfl
  · have hovf : overlay.isEmpty = false := by
      revert hov; cases overlay.isEmpty <;> simp
    simp only [slicesCore, hovf, Bool.false_eq_true, ite_false, hm]
    by_cases hkeys :
        (overlay.any fun it => (getPrimaryKey cfg (currentMeta p2) it).isSome) = true
    · rw [if_pos hkeys, if_pos hkeys]
      have hsb := slicesBase_stateIrrel mv1 mv2 cfg di1 di2
        (match (currentMeta p2).bind Meta.objectMode with
          | some m => m
          | none => cfg.objectListMode) hroot hmv base 0 p1 p2 [] []
      rcases hb1 : slicesBase mv1 cfg di1 (match (currentMeta p2).bind Meta.objectMode with
          | some m => m
          | none => cfg.objectListMode) p1 0 [] [] base with ⟨e1, q1⟩
      rcases hb2 : slicesBase mv2 cfg di2 (match (currentMeta p2).bind Meta.objectMode with
          | some m => m
          | none => cfg.objectListMode) p2 0 [] [] base with ⟨e2, q2⟩
      rw [hb1, hb2] at hsb
      cases e1 with
      | error er1 =>
          cases e2 with
          | error er2 => rfl
          | ok pr2 => exact absurd hsb (by simp [okPart, Except.toOption])
      | ok pr1 =>
          cases e2 with
          | error er2 => exact absurd hsb (by simp [okPart, Except.toOption])
          | ok pr2 =>
              have hpr : pr1 = pr2 := by simpa [okPart, Except.toOption] using hsb
              subst hpr
              rcases pr1 with ⟨res, idx⟩
              dsimp only
              cases homm : (match (currentMeta p2).bind Meta.objectMode with
                  | some m => m
                  | none => cfg.objectListMode) with
              | unique =>
                  dsimp only
                  have hps := overlayPrescan_stateIrrel cfg di1 di2 hroot overlay 0 q1 q2 []
                  rcases hp1 : overlayPrescan cfg di1 q1 0 [] overlay with ⟨s1, r1⟩
                  rcases hp2 : overlayPrescan cfg di2 q2 0 [] overlay with ⟨s2, r2⟩
                  rw [hp1, hp2] at hps
                  cases s1 with
                  | error er1 =>
                      cases s2 with
                      | error er2 => rfl
                      | ok u2 => exact absurd hps (by simp [okPart, Except.toOption])
                  | ok u1 =>
                      cases s2 with
                      | error er2 => exact absurd hps (by simp [okPart, Except.toOption])
                      | ok u2 =>
                          dsimp only
                          have hso := slicesOverlay_stateIrrel mv1 mv2 cfg di1 di2 .unique
                            hroot hmv overlay 0 r1 r2 res idx
                          rcases ho1 : slicesOverlay mv1 cfg di1 .unique r1 0 res idx overlay
                            with ⟨t1, w1⟩
                          rcases ho2 : slicesOverlay mv2 cfg di2 .unique r2 0 res idx overlay
                            with ⟨t2, w2⟩
                          rw [ho1, ho2] at hso
                          cases t1 with
                          | error er1 =>
                              cases t2 with
                              | error er2 => rfl
                              | ok res2 => exact absurd hso (by simp [okPart, Except.toOption])
                          | ok res1 =>
                              cases t2 with
                              | error er2 => exact absurd hso (by simp [okPart, Except.toOption])
                              | ok res2 =>
                                  have hr : res1 = res2 := by
                                    simpa [okPart, Except.toOption] using hso
                                  subst hr
                                  dsimp only
                                  by_cases hfil : cfg.deleteMarkerKey ≠ "" ∨
                                      ObjectListMode.unique = ObjectListMode.consolidate
                                  · rw [if_pos hfil, if_pos hfil]
                                    rfl
                                  · rw [if_neg hfil, if_neg hfil]
                                    rfl
              | consolidate =>
                  dsimp only
                  have hso := slicesOverlay_stateIrrel mv1 mv2 cfg di1 di2 .consolidate
                    hroot hmv overlay 0 q1 q2 res idx
                  rcases ho1 : slicesOverlay mv1 cfg di1 .consolidate q1 0 res idx overlay
                    with ⟨t1, w1⟩
                  rcases ho2 : slicesOverlay mv2 cfg di2 .consolidate q2 0 res idx overlay
                    with ⟨t2, w2⟩
                  rw [ho1, ho2] at hso
                  cases t1 with
                  | error er1 =>
                      cases t2 with
                      | error er2 => rfl
                      | ok res2 => exact absurd hso (by simp [okPart, Except.toOption])
                  | ok res1 =>
                      cases t2 with
                      | error er2 => exact absurd hso (by simp [okPart, Except.toOption])
                      | ok res2 =>
                          have hr : res1 = res2 := by
                            simpa [okPart, Except.toOption] using hso
                          subst hr
                          dsimp only
                          by_cases hfil : cfg.deleteMarkerKey ≠ "" ∨
                              ObjectListMode.consolidate = ObjectListMode.consolidate
                          · rw [if_pos hfil, if_pos hfil]
                            rfl
                          · rw [if_neg hfil, if_neg hfil]
                            rfl
    · have hkf :
          (overlay.any fun it => (getPrimaryKey cfg (currentMeta p2) it).isSome) = false := by
        revert hkeys
        cases overlay.any fun it => (getPrimaryKey cfg (currentMeta p2) it).isSome <;> simp
      rw [if_neg (by rw [hkf]; simp), if_neg (by rw [hkf]; simp)]
      cases hcm2 : currentMeta p2 with
      | none =>
          cases hsc : cfg.scalarListMode <;> rfl
      | some mta =>
          simp only [Option.some_bind]
          rcases hms : mta.scalarMode with _ | sm
          · cases hsc : cfg.scalarListMode <;> rfl
          · cases sm <;> rfl


theorem mergeValues_stateIrrel (cfg : Cfg) (hroot : cfg.rootMeta = none) :
    ∀ (f : Nat) (di1 di2 : Nat) (p1 p2 : Path) (b o : Value),
      currentMeta p1 = currentMeta p2 →
      okPart (mergeValues f cfg di1 p1 b o) = okPart (mergeValues f cfg di2 p2 b o) := by
  intro f
  induction f with
  | zero => intro di1 di2 p1 p2 b o _; rfl
  | succ f2 ih =>
      intro di1 di2 p1 p2 b o hm
      by_cases ho : o = Value.null
      · subst ho
        simp [mergeValues, okPart]
      · by_cases hb : b = Value.null
        · subst hb
          simp [mergeValues, ho, okPart]
        · have hmv : ∀ q1 q2 b2 o2, currentMeta q1 = currentMeta q2 →
              okPart (mergeValues f2 cfg di1 q1 b2 o2)
                = okPart (mergeValues f2 cfg di2 q2 b2 o2) :=
            fun q1 q2 b2 o2 hq => ih di1 di2 q1 q2 b2 o2 hq
          cases b with
          | map bm =>
              cases o with
              | map om =>
                  have hmm := mergeMapsGo_stateIrrel (mergeValues f2 cfg di1)
                    (mergeValues f2 cfg di2) cfg hroot hmv om p1 p2 bm
                  rcases h1 : mergeMapsGo (mergeValues f2 cfg di1) cfg p1 bm om with ⟨e1, q1⟩
                  rcases h2 : mergeMapsGo (mergeValues f2 cfg di2) cfg p2 bm om with ⟨e2, q2⟩
                  rw [h1, h2] at hmm
                  simp only [mergeValues, if_neg ho, if_neg hb, h1, h2]
                  cases e1 with
                  | error er1 =>
                      cases e2 with
                      | error er2 => rfl
                      | ok m2 => exact absurd hmm (by simp [okPart, Except.toOption])
                  | ok m1 =>
                      cases e2 with
                      | error er2 => exact absurd hmm (by simp [okPart, Except.toOption])
                      | ok m2 =>
                          have : m1 = m2 := by simpa [okPart, Except.toOption] using hmm
                          subst this
                          rfl
              | null => exact absurd rfl ho
              | str s => simp [mergeValues, ho, hb, okPart]
              | int n => simp [mergeValues, ho, hb, okPart]
              | bool b2 => simp [mergeValues, ho, hb, okPart]
              | list ol => simp [mergeValues, ho, hb, okPart]
          | list bl =>
              cases o with
              | list ol =>
                  have hsc := slicesCore_stateIrrel (mergeValues f2 cfg di1)
                    (mergeValues f2 cfg di2) cfg di1 di2 hroot hmv p1 p2 bl ol hm
                  rcases h1 : slicesCore (mergeValues f2 cfg di1) cfg di1 p1 bl ol
                    with ⟨e1, q1⟩
                  rcases h2 : slicesCore (mergeValues f2 cfg di2) cfg di2 p2 bl ol
                    with ⟨e2, q2⟩
                  rw [h1, h2] at hsc
                  simp only [mergeValues, if_neg ho, if_neg hb, h1, h2]
                  cases e1 with
                  | error er1 =>
                      cases e2 with
                      | error er2 => rfl
                      | ok m2 => exact absurd hsc (by simp [okPart, Except.toOption])
                  | ok m1 =>
                      cases e2 with
                      | error er2 => exact absurd hsc (by simp [okPart, Except.toOption])
                      | ok m2 =>
                          have : m1 = m2 := by simpa [okPart, Except.toOption] using hsc
                          subst this
                          rfl
              | null => exact absurd rfl ho
              | str s => simp [mergeValues, ho, hb, okPart]
              | int n => simp [mergeValues, ho, hb, okPart]
              | bool b2 => simp [mergeValues, ho, hb, okPart]
              | map om => simp [mergeValues, ho, hb, okPart]
          | null => exact absurd rfl hb
          | str s => simp [mergeValues, ho, hb, okPart]
          | int n => simp [mergeValues, ho, hb, okPart]
          | bool b2 => simp [mergeValues, ho, hb, okPart]

end StateIrrelLemmas

section MapOrderLemmas

theorem mapsEquiv_refl (m : List (String × Value)) : mapsEquiv m m :=
  fun _ => rfl

theorem okMapsEquiv_trans :
    ∀ {o1 o2 o3 : Option (List (String × Value))},
      okMapsEquiv o1 o2 → okMapsEquiv o2 o3 → okMapsEquiv o1 o3
  | none, none, none, _, _ => True.intro
  | some _, some _, some _, h12, h23 => fun k => (h12 k).trans (h23 k)
  | none, some _, _, h12, _ => h12.elim
  | some _, none, _, h12, _ => h12.elim
  | none, none, some _, _, h23 => h23.elim
  | some _, some _, none, _, h23 => h23.elim

theorem lookupA_eraseA :
    ∀ (res : List (String × Value)) (key k' : String),
      lookupA (eraseA res key) k' = if key = k' then none else lookupA res k' := by
  intro res
  induction res with
  | nil =>
      intro key k'
      by_cases h : key = k' <;> simp [eraseA, lookupA, h]
  | cons pr rest ih =>
      rcases pr with ⟨k1, v1⟩
      intro key k'
      by_cases h1 : k1 = key
      · subst h1
        by_cases h2 : k1 = k' <;> simp [eraseA, lookupA, h2, ih]
      · by_cases h2 : k1 = k'
        · subst h2
          have hne : ¬ key = k1 := fun h => h1 h.symm
          simp [eraseA, lookupA, h1, hne]
        · by_cases h3 : key = k' <;> simp [eraseA, lookupA, h1, h2, h3, ih]

theorem lookupA_append_one :
    ∀ (res : List (String × Value)) (key k' : String) (v : Value),
      lookupA res key = none →
      lookupA (res ++ [(key, v)]) k'
        = if key = k' then some v else lookupA res k' := by
  intro res
  induction res with
  | nil =>
      intro key k' v _
      by_cases h : key = k' <;> simp [lookupA, h]
  | cons pr rest ih =>
      rcases pr with ⟨k1, v1⟩
      intro key k' v hnone
      rw [lookupA] at hnone
      by_cases h1 : k1 = key
      · rw [if_pos h1] at hnone
        exact absurd hnone (by simp)
      · rw [if_neg h1] at hnone
        by_cases h2 : k1 = k'
        · have hne : ¬ key = k' := fun h => h1 (h2.trans h.symm)
          simp [lookupA, h2, hne]
        · rw [List.cons_append, lookupA, lookupA, if_neg h2, if_neg h2,
            ih key k' v hnone]

theorem lookupA_updateA :
    ∀ (res : List (String × Value)) (key k' : String) (nv : Value),
      (lookupA res key).isSome →
      lookupA (updateA res key nv) k'
        = if key = k' then some nv else lookupA res k' := by
  intro res
  induction res with
  | nil =>
      intro key k' nv hsome
      simp [lookupA] at hsome
  | cons pr rest ih =>
      rcases pr with ⟨k1, v1⟩
      intro key k' nv hsome
      by_cases h1 : k1 = key
      · subst h1
        by_cases h2 : k1 = k' <;> simp [updateA, lookupA, h2]
      · have hsome' : (lookupA rest key).isSome := by
          rw [lookupA, if_neg h1] at hsome
          exact hsome
        by_cases h2 : k1 = k'
        · subst h2
          have hne : ¬ key = k1 := fun h => h1 h.symm
          simp [updateA, lookupA, h1, hne]
        · simp [updateA, lookupA, h1, h2, ih key k' nv hsome']

theorem lookupA_setA (res : List (String × Value)) (key k' : String)
    (ov : Option Value) :
    lookupA (setA res key ov) k' = if key = k' then ov else lookupA res k' := by
  cases ov with
  | none =>
      show lookupA (eraseA res key) k' = _
      exact lookupA_eraseA res key k'
  | some w =>
      show lookupA (if (lookupA res key).isSome then updateA res key w
        else res ++ [(key, w)]) k' = _
      by_cases hs : (lookupA res key).isSome
      · rw [if_pos hs, lookupA_updateA res key k' w hs]
      · rw [if_neg hs,
          lookupA_append_one res key k' w (Option.not_isSome_iff_eq_none.mp hs)]

theorem stepVal_congr (mv : MergeFn) (cfg : Cfg)
    (hroot : cfg.rootMeta = none)
    (hmv : ∀ p1 p2 b o, currentMeta p1 = currentMeta p2 →
      okPart (mv p1 b o) = okPart (mv p2 b o))
    (p1 p2 : Path) (res1 res2 : List (String × Value)) (k : String) (v : Value)
    (hlk : lookupA res1 k = lookupA res2 k) :
    stepVal mv cfg p1 res1 k v = stepVal mv cfg p2 res2 k v := by
  unfold stepVal
  by_cases hmrk : isMarkedForDeletion cfg v
  · rw [if_pos hmrk, if_pos hmrk]
  · rw [if_neg hmrk, if_neg hmrk, ← hlk]
    cases hl : lookupA res1 k with
    | none => rfl
    | some bv =>
        dsimp only
        rw [hmv (pushSeg cfg p1 k) (pushSeg cfg p2 k) bv v
          (by rw [currentMeta_pushSeg cfg hroot, currentMeta_pushSeg cfg hroot])]

theorem mergeMapsGo_step (mv : MergeFn) (cfg : Cfg) (p : Path)
    (res : List (String × Value)) (k : String) (v : Value)
    (rest : List (String × Value)) :
    (stepVal mv cfg p res k v = none →
      okPart (mergeMapsGo mv cfg p res ((k, v) :: rest)) = none) ∧
    ∀ ov, stepVal mv cfg p res k v = some ov →
      ∃ q, mergeMapsGo mv cfg p res ((k, v) :: rest)
        = mergeMapsGo mv cfg q (setA res k ov) rest := by
  by_cases hmrk : isMarkedForDeletion cfg v
  · constructor
    · intro h
      rw [stepVal, if_pos hmrk] at h
      exact Option.noConfusion h
    · intro ov hov
      rw [stepVal, if_pos hmrk] at hov
      injection hov with hov1
      subst hov1
      refine ⟨pushSeg cfg p k, ?_⟩
      simp only [mergeMapsGo, hmrk, ite_true]
      rfl
  · cases hlk : lookupA res k with
    | none =>
        constructor
        · intro h
          rw [stepVal, if_neg hmrk, hlk] at h
          exact Option.noConfusion h
        · intro ov hov
          rw [stepVal, if_neg hmrk, hlk] at hov
          injection hov with hov1
          subst hov1
          refine ⟨popSeg (pushSeg cfg p k), ?_⟩
          have hmf : isMarkedForDeletion cfg v = false := by
            revert hmrk
            cases isMarkedForDeletion cfg v <;> simp
          simp only [mergeMapsGo, hmf, Bool.false_eq_true, ite_false, hlk]
          have hset : setA res k (some v) = res ++ [(k, v)] := by
            rw [setA, hlk]
            rfl
          rw [hset]
    | some bv =>
        have hmf : isMarkedForDeletion cfg v = false := by
          revert hmrk
          cases isMarkedForDeletion cfg v <;> simp
        rcases hr : mv (pushSeg cfg p k) bv v with ⟨er, pr2⟩
        cases er with
        | error e =>
            constructor
            · intro _
              simp only [mergeMapsGo, hmf, Bool.false_eq_true, ite_false, hlk, hr]
              rfl
            · intro ov hov
              simp [stepVal, hmrk, hlk, hr, okPart, Except.toOption] at hov
        | ok m =>
            constructor
            · intro h
              simp [stepVal, hmrk, hlk, hr, okPart, Except.toOption] at h
            · intro ov hov
              simp [stepVal, hmrk, hlk, hr, okPart, Except.toOption] at hov
              subst hov
              refine ⟨popSeg pr2, ?_⟩
              simp only [mergeMapsGo, hmf, Bool.false_eq_true, ite_false, hlk, hr]
              have hset : setA res k (some m) = updateA res k m := by
                rw [setA, hlk]
                rfl
              rw [hset]

theorem mergeMapsGo_resEquiv (mv : MergeFn) (cfg : Cfg)
    (hroot : cfg.rootMeta = none)
    (hmv : ∀ p1 p2 b o, currentMeta p1 = currentMeta p2 →
      okPart (mv p1 b o) = okPart (mv p2 b o)) :
    ∀ (rem : List (String × Value)) (p1 p2 : Path)
      (res1 res2 : List (String × Value)), mapsEquiv res1 res2 →
      okMapsEquiv (okPart (mergeMapsGo mv cfg p1 res1 rem))
        (okPart (mergeMapsGo mv cfg p2 res2 rem)) := by
  intro rem
  induction rem with
  | nil =>
      intro p1 p2 res1 res2 heq
      exact heq
  | cons pr rest ih =>
      rcases pr with ⟨k, v⟩
      intro p1 p2 res1 res2 heq
      have hsv := stepVal_congr mv cfg hroot hmv p1 p2 res1 res2 k v (heq k)
      cases hs1 : stepVal mv cfg p1 res1 k v with
      | none =>
          have h1 := (mergeMapsGo_step mv cfg p1 res1 k v rest).1 hs1
          have h2 := (mergeMapsGo_step mv cfg p2 res2 k v rest).1 (hsv.symm.trans hs1)
          rw [h1, h2]
          trivial
      | some ov =>
          obtain ⟨q1, he1⟩ := (mergeMapsGo_step mv cfg p1 res1 k v rest).2 ov hs1
          obtain ⟨q2, he2⟩ :=
            (mergeMapsGo_step mv cfg p2 res2 k v rest).2 ov (hsv.symm.trans hs1)
          rw [he1, he2]
          apply ih
          intro k'
          rw [lookupA_setA, lookupA_setA]
          by_cases hkk : k = k'
          · rw [if_pos hkk, if_pos hkk]
          · rw [if_neg hkk, if_neg hkk]
            exact heq k'

theorem mergeMapsGo_permEquiv (mv : MergeFn) (cfg : Cfg)
    (hroot : cfg.rootMeta = none)
    (hmv : ∀ p1 p2 b o, currentMeta p1 = currentMeta p2 →
      okPart (mv p1 b o) = okPart (mv p2 b o)) :
    ∀ {l1 l2 : List (String × Value)}, l1.Perm l2 →
      (l1.map Prod.fst).Nodup →
      ∀ (p1 p2 : Path) (res1 res2 : List (String × Value)), mapsEquiv res1 res2 →
        okMapsEquiv (okPart (mergeMapsGo mv cfg p1 res1 l1))
          (okPart (mergeMapsGo mv cfg p2 res2 l2)) := by
  intro l1 l2 hperm
  induction hperm with
  | nil =>
      intro _ p1 p2 res1 res2 heq
      exact heq
  | @cons x l1s l2s hp ih =>
      obtain ⟨k, v⟩ := x
      intro hnd p1 p2 res1 res2 heq
      rw [List.map_cons] at hnd
      have hnd' := (List.nodup_cons.mp hnd).2
      have hsv := stepVal_congr mv cfg hroot hmv p1 p2 res1 res2 k v (heq k)
      cases hs1 : stepVal mv cfg p1 res1 k v with
      | none =>
          have h1 := (mergeMapsGo_step mv cfg p1 res1 k v l1s).1 hs1
          have h2 := (mergeMapsGo_step mv cfg p2 res2 k v l2s).1 (hsv.symm.trans hs1)
          rw [h1, h2]
          trivial
      | some ov =>
          obtain ⟨q1, he1⟩ := (mergeMapsGo_step mv cfg p1 res1 k v l1s).2 ov hs1
          obtain ⟨q2, he2⟩ :=
            (mergeMapsGo_step mv cfg p2 res2 k v l2s).2 ov (hsv.symm.trans hs1)
          rw [he1, he2]
          apply ih hnd'
          intro k'
          rw [lookupA_setA, lookupA_setA]
          by_cases hkk : k = k'
          · rw [if_pos hkk, if_pos hkk]
          · rw [if_neg hkk, if_neg hkk]
            exact heq k'
  | swap x y l =>
      obtain ⟨kx, vx⟩ := x
      obtain ⟨ky, vy⟩ := y
      intro hnd p1 p2 res1 res2 heq
      rw [List.map_cons, List.map_cons] at hnd
      have hne : ¬ ky = kx := by
        have h1 := (List.nodup_cons.mp hnd).1
        simp at h1
        exact h1.1
      cases hsy : stepVal mv cfg p1 res1 ky vy with
      | none =>
          have hLn := (mergeMapsGo_step mv cfg p1 res1 ky vy ((kx, vx) :: l)).1 hsy
          rw [hLn]
          cases hsx2 : stepVal mv cfg p2 res2 kx vx with
          | none =>
              have hRn :=
                (mergeMapsGo_step mv cfg p2 res2 kx vx ((ky, vy) :: l)).1 hsx2
              rw [hRn]
              trivial
          | some ovx =>
              obtain ⟨q2, he2⟩ :=
                (mergeMapsGo_step mv cfg p2 res2 kx vx ((ky, vy) :: l)).2 ovx hsx2
              rw [he2]
              have hsy2 : stepVal mv cfg q2 (setA res2 kx ovx) ky vy = none := by
                rw [stepVal_congr mv cfg hroot hmv q2 p1 (setA res2 kx ovx) res1 ky vy
                  (by rw [lookupA_setA, if_neg (fun h => hne h.symm)]
                      exact (heq ky).symm)]
                exact hsy
              have hRn :=
                (mergeMapsGo_step mv cfg q2 (setA res2 kx ovx) ky vy l).1 hsy2
              rw [hRn]
              trivial
      | some ovy =>
          obtain ⟨q1, he1⟩ :=
            (mergeMapsGo_step mv cfg p1 res1 ky vy ((kx, vx) :: l)).2 ovy hsy
          rw [he1]
          cases hsx : stepVal mv cfg q1 (setA res1 ky ovy) kx vx with
          | none =>
              have hLn :=
                (mergeMapsGo_step mv cfg q1 (setA res1 ky ovy) kx vx l).1 hsx
              rw [hLn]
              have hsx2 : stepVal mv cfg p2 res2 kx vx = none := by
                rw [← stepVal_congr mv cfg hroot hmv q1 p2 (setA res1 ky ovy) res2 kx vx
                  (by rw [lookupA_setA, if_neg hne]
                      exact heq kx)]
                exact hsx
              have hRn :=
                (mergeMapsGo_step mv cfg p2 res2 kx vx ((ky, vy) :: l)).1 hsx2
              rw [hRn]
              trivial
          | some ovx =>
              obtain ⟨q1b, he1b⟩ :=
                (mergeMapsGo_step mv cfg q1 (setA res1 ky ovy) kx vx l).2 ovx hsx
              rw [he1b]
              have hsx2 : stepVal mv cfg p2 res2 kx vx = some ovx := by
                rw [← stepVal_congr mv cfg hroot hmv q1 p2 (setA res1 ky ovy) res2 kx vx
                  (by rw [lookupA_setA, if_neg hne]
                      exact heq kx)]
                exact hsx
              obtain ⟨q2, he2⟩ :=
                (mergeMapsGo_step mv cfg p2 res2 kx vx ((ky, vy) :: l)).2 ovx hsx2
              rw [he2]
              have hsy2 : stepVal mv cfg q2 (setA res2 kx ovx) ky vy = some ovy := by
                rw [stepVal_congr mv cfg hroot hmv q2 p1 (setA res2 kx ovx) res1 ky vy
                  (by rw [lookupA_setA, if_neg (fun h => hne h.symm)]
                      exact (heq ky).symm)]
                exact hsy
              obtain ⟨q2b, he2b⟩ :=
                (mergeMapsGo_step mv cfg q2 (setA res2 kx ovx) ky vy l).2 ovy hsy2
              rw [he2b]
              apply mergeMapsGo_resEquiv mv cfg hroot hmv l q1b q2b
              intro k'
              rw [lookupA_setA, lookupA_setA, lookupA_setA, lookupA_setA]
              by_cases hx : kx = k'
              · rw [if_pos hx, if_neg (fun h => hne (h.trans hx.symm)), if_pos hx]
              · rw [if_neg hx]
                by_cases hy : ky = k'
                · rw [if_pos hy, if_pos hy]
                · rw [if_neg hy, if_neg hy, if_neg hx]
                  exact heq k'
  | trans hp1 hp2 ih1 ih2 =>
      intro hnd p1 p2 res1 res2 heq
      have hnd2 := (List.Perm.nodup_iff (hp1.map Prod.fst)).mp hnd
      exact okMapsEquiv_trans (ih1 hnd p1 p1 res1 res1 (mapsEquiv_refl res1))
        (ih2 hnd2 p1 p2 res1 res2 heq)

end MapOrderLemmas

/-- C1: the claim fails on the code.  A list item carrying the deletion
marker whose primary-key field holds an object does not produce a
non-comparable-key error: the overlay deletion branch looks the
unchecked key up in the position index, and hashing the unhashable map
key panics at runtime — in unique mode (where the pre-scan skipped the
item) and in consolidate mode alike. -/
theorem c1_deletion_marked_noncomparable_key_panics :
    (mergeSlices 20 cfgDelete 1 [] []
        [Value.map [("id", Value.map []), ("del", Value.bool true)]]).1
      = .error .panicHash ∧
    (mergeSlices 20 cfgDeleteCons 1 [] []
        [Value.map [("id", Value.map []), ("del", Value.bool true)]]).1
      = .error .panicHash ∧
    mergeUnstructured 20 cfgDelete
        [Value.list [], Value.list [Value.map [("id", Value.map []), ("del", Value.bool true)]]]
      = .error .panicHash := by
  refine ⟨?_, ?_, ?_⟩ <;> rfl

/-- C2: the claim fails on the code.  In `mergeMaps`, the deletion-marker
branch `continue`s without popping the pushed key, so a map merge that
deletes a key leaves the path one segment longer than on entry (here the
merge succeeds and the path grew from empty to length one). -/
theorem c2_mergeMaps_deletion_branch_leaks_path :
    (mergeMaps 20 cfgDelete 1 [] [("x", Value.int 1)]
        [("x", Value.map [("del", Value.bool true)])]).1
      = .ok [] ∧
    (mergeMaps 20 cfgDelete 1 [] [("x", Value.int 1)]
        [("x", Value.map [("del", Value.bool true)])]).2.length
      = 1 := by
  exact ⟨rfl, rfl⟩

/-- C3: the claim fails on the code.  Under the composite key (r, n), the
items {r: "a b", n: "c"} and {r: "a", n: "b c"} have componentwise
different keys, yet `toMapKey` renders both composites as the string
"[a b c]", so the merge matches them and folds them into a single item
instead of appending the overlay item. -/
theorem c3_composite_key_string_collision :
    getPrimaryKey cfgComposite (some (Meta.node ["r", "n"] none none []))
        (Value.map [("r", Value.str "a b"), ("n", Value.str "c"), ("u", Value.int 1)])
      = some (.composite [Value.str "a b", Value.str "c"]) ∧
    getPrimaryKey cfgComposite (some (Meta.node ["r", "n"] none none []))
        (Value.map [("r", Value.str "a"), ("n", Value.str "b c"), ("w", Value.int 2)])
      = some (.composite [Value.str "a", Value.str "b c"]) ∧
    [Value.str "a b", Value.str "c"] ≠ [Value.str "a", Value.str "b c"] ∧
    toMapKey (.composite [Value.str "a b", Value.str "c"])
      = toMapKey (.composite [Value.str "a", Value.str "b c"]) ∧
    mergeUnstructured 20 cfgComposite
        [Value.map [("l", Value.list
            [Value.map [("r", Value.str "a b"), ("n", Value.str "c"), ("u", Value.int 1)]])],
         Value.map [("l", Value.list
            [Value.map [("r", Value.str "a"), ("n", Value.str "b c"), ("w", Value.int 2)]])]]
      = .ok (Value.map [("l", Value.list
          [Value.map [("r", Value.str "a"), ("n", Value.str "b c"),
                      ("u", Value.int 1), ("w", Value.int 2)]])]) := by
  refine ⟨rfl, rfl, by decide, rfl, ?_⟩
  rfl

/-- C5 counterexample: self-merge is not idempotent.  The single-scalar
list ["a"] is a valid document with no duplicate primary keys, yet
merging it with itself concatenates, yielding ["a", "a"]. -/
theorem c5_counterexample :
    mergeUnstructured 20 cfgFlat [Value.list [Value.str "a"], Value.list [Value.str "a"]]
      = .ok (Value.list [Value.str "a", Value.str "a"]) ∧
    Value.list [Value.str "a", Value.str "a"] ≠ Value.list [Value.str "a"] := by
  exact ⟨rfl, by decide⟩

/-- C6 counterexample: folding is not associative.  With delete marker
`del`, document a = {del: {l: [{id: {}}]}} loses its `del` field to the
intermediate strip pass of merge(a, b), so merge(merge(a, b), c)
succeeds, while the single three-document merge keeps the field, merges
c's `del` value into it, and fails on the non-comparable `id` key. -/
theorem c6_counterexample :
    mergeUnstructured 20 cfgDelete
        [Value.map [("del", Value.map [("l", Value.list [Value.map [("id", Value.map [])]])])],
         Value.map []]
      = .ok (Value.map []) ∧
    mergeUnstructured 20 cfgDelete
        [Value.map [],
         Value.map [("del", Value.map [("l", Value.list [Value.map [("id", Value.int 5)]])])]]
      = .ok (Value.map []) ∧
    mergeUnstructured 20 cfgDelete
        [Value.map [("del", Value.map [("l", Value.list [Value.map [("id", Value.map [])]])])],
         Value.map [],
         Value.map [("del", Value.map [("l", Value.list [Value.map [("id", Value.int 5)]])])]]
      = .error (.nonComparableKey "map[]" 0 ["del", "l", "0"] 2) := by
  refine ⟨rfl, rfl, ?_⟩
  rfl

/-- One step of the document fold (defining equation of `mergeDocs`). -/
theorem mergeDocs_cons (fuel : Nat) (cfg : Cfg) (i : Nat) (res d : Value)
    (rest : List Value) :
    mergeDocs fuel cfg i res (d :: rest)
      = match mergeValues fuel cfg i [] res d with
        | (.ok r2, _) => mergeDocs fuel cfg (i + 1) r2 rest
        | (.error e, _) => .error e := rfl

/-- Defining equation of `mergeUnstructured`. -/
theorem mergeUnstructured_eq (fuel : Nat) (cfg : Cfg) (docs : List Value) :
    mergeUnstructured fuel cfg docs
      = match mergeDocs fuel cfg 0 .null docs with
        | .error e => .error e
        | .ok res => .ok (stripDeleteMarker cfg res) := rfl

/-- C6 (amended): with no metadata tree and the delete marker disabled,
document folding is associative: whenever the two-document merge of
`[a, b]` yields `x` and the merge of `[x, c]` yields `y`, the single
three-document merge of `[a, b, c]` also yields `y`.  (With a delete
marker configured the original claim fails: the intermediate strip pass
of the inner merge changes the result, see its counterexample.) -/
theorem c6_assoc_no_marker (cfg : Cfg) (f : Nat)
    (hroot : cfg.rootMeta = none) (hdel : cfg.deleteMarkerKey = "")
    (a b c x y : Value)
    (h1 : mergeUnstructured f cfg [a, b] = .ok x)
    (h2 : mergeUnstructured f cfg [x, c] = .ok y) :
    mergeUnstructured f cfg [a, b, c] = .ok y := by
  cases f with
  | zero =>
      exact absurd h1 (by simp [mergeUnstructured, mergeDocs, mergeValues])
  | succ f2 =>
      have ha := mergeValues_nil_base f2 cfg 0 [] a
      have hx0 := mergeValues_nil_base f2 cfg 0 [] x
      have ea1 : mergeDocs (f2 + 1) cfg 0 .null [a, b]
          = mergeDocs (f2 + 1) cfg (0 + 1) a [b] := by
        rw [mergeDocs_cons, ha]
      have ea2 : mergeDocs (f2 + 1) cfg 0 .null [a, b, c]
          = mergeDocs (f2 + 1) cfg (0 + 1) a [b, c] := by
        rw [mergeDocs_cons, ha]
      have ex1 : mergeDocs (f2 + 1) cfg 0 .null [x, c]
          = mergeDocs (f2 + 1) cfg (0 + 1) x [c] := by
        rw [mergeDocs_cons, hx0]
      rw [mergeUnstructured_eq, ea1] at h1
      rw [mergeUnstructured_eq, ex1] at h2
      rw [mergeUnstructured_eq, ea2]
      rcases hc : mergeValues (f2 + 1) cfg (0 + 1) [] x c with ⟨ec, pc⟩
      cases ec with
      | error e =>
          have hc1 : mergeDocs (f2 + 1) cfg (0 + 1) x [c] = Except.error e := by
            rw [mergeDocs_cons, hc]
            try rfl
          rw [hc1] at h2
          exact Except.noConfusion h2
      | ok w =>
          have hc1 : mergeDocs (f2 + 1) cfg (0 + 1) x [c] = Except.ok w := by
            rw [mergeDocs_cons, hc]
            try rfl
          rw [hc1] at h2
          have h2' : (Except.ok (stripDeleteMarker cfg w) : Except MergeErr Value)
              = Except.ok y := h2
          injection h2' with h2e
          rw [stripDeleteMarker_disabled cfg hdel] at h2e
          subst h2e
          rcases hb : mergeValues (f2 + 1) cfg (0 + 1) [] a b with ⟨eb, pb⟩
          cases eb with
          | error e =>
              have hb1 : mergeDocs (f2 + 1) cfg (0 + 1) a [b] = Except.error e := by
                rw [mergeDocs_cons, hb]
                try rfl
              rw [hb1] at h1
              exact Except.noConfusion h1
          | ok v =>
              have hb1 : mergeDocs (f2 + 1) cfg (0 + 1) a [b] = Except.ok v := by
                rw [mergeDocs_cons, hb]
                try rfl
              rw [hb1] at h1
              have h1' : (Except.ok (stripDeleteMarker cfg v) : Except MergeErr Value)
                  = Except.ok x := h1
              injection h1' with h1e
              rw [stripDeleteMarker_disabled cfg hdel] at h1e
              subst h1e
              have hsi := mergeValues_stateIrrel cfg hroot (f2 + 1) (0 + 1 + 1) (0 + 1)
                [] [] v c rfl
              rw [hc] at hsi
              rcases hc2 : mergeValues (f2 + 1) cfg (0 + 1 + 1) [] v c with ⟨ec2, qc2⟩
              rw [hc2] at hsi
              cases ec2 with
              | error e => exact absurd hsi (by simp [okPart, Except.toOption])
              | ok w2 =>
                  have hw2 : w2 = w := by
                    simpa [okPart, Except.toOption] using hsi
                  have hb2 : mergeDocs (f2 + 1) cfg (0 + 1) a [b, c]
                      = mergeDocs (f2 + 1) cfg (0 + 1 + 1) v [c] := by
                    rw [mergeDocs_cons, hb]
                    try rfl
                  have hfin : mergeDocs (f2 + 1) cfg (0 + 1 + 1) v [c] = Except.ok w := by
                    rw [mergeDocs_cons, hc2, hw2]
                    try rfl
                  rw [hb2, hfin]
                  show Except.ok (stripDeleteMarker cfg w) = Except.ok w
                  rw [stripDeleteMarker_disabled cfg hdel]

/-- Witness for `c6_assoc_no_marker` on concrete documents: three flat
maps whose pairwise and three-way folds agree. -/
theorem c6_witness :
    mergeUnstructured 5 cfgFlat
      [Value.map [("p", Value.int 1)], Value.map [("q", Value.int 2)],
       Value.map [("p", Value.int 3), ("r", Value.int 4)]]
      = .ok (Value.map [("p", Value.int 3), ("q", Value.int 2), ("r", Value.int 4)]) :=
  c6_assoc_no_marker cfgFlat 5 rfl rfl
    (Value.map [("p", Value.int 1)]) (Value.map [("q", Value.int 2)])
    (Value.map [("p", Value.int 3), ("r", Value.int 4)])
    (Value.map [("p", Value.int 1), ("q", Value.int 2)])
    (Value.map [("p", Value.int 3), ("q", Value.int 2), ("r", Value.int 4)])
    rfl rfl

theorem unmarshalAll_first_failure (unmarshal : String → Except String Value) :
    ∀ (docs : List String) (k i : Nat) (e : String),
      i < docs.length →
      (∀ j, j < i → ∃ v, unmarshal (docs.getD j "") = .ok v) →
      unmarshal (docs.getD i "") = .error e →
      unmarshalAll unmarshal k docs = .error (.marshalErr e (k + i)) := by
  intro docs
  induction docs with
  | nil =>
      intro k i e hi _ _
      simp at hi
  | cons d rest ih =>
      intro k i e hi hbefore hfail
      cases i with
      | zero =>
          rw [List.getD_cons_zero] at hfail
          simp [unmarshalAll, hfail]
      | succ i2 =>
          obtain ⟨v, hv⟩ := hbefore 0 (Nat.succ_pos i2)
          rw [List.getD_cons_zero] at hv
          rw [List.getD_cons_succ] at hfail
          have hres := ih (k + 1) i2 e (by simpa using hi)
            (fun j hj => by
              obtain ⟨w, hw⟩ := hbefore (j + 1) (by omega)
              rw [List.getD_cons_succ] at hw
              exact ⟨w, hw⟩)
            hfail
          simp only [unmarshalAll, hv, hres]
          have h5 : k + 1 + i2 = k + (i2 + 1) := by omega
          rw [h5]

/-- C7 (amended): the byte wrapper returns an empty byte output and no
error for zero documents, and every unmarshal failure is wrapped in the
structured codec error carrying the offending document's index; a failure
of the final marshal call, however, is returned unwrapped. -/
theorem c7_wrapper_contract (cfg : Cfg) (f : Nat)
    (unmarshal : String → Except String Value)
    (marshal : Value → Except String String) :
    mergeBytes f cfg unmarshal marshal [] = .ok "" ∧
    (∀ (docs : List String) (i : Nat) (e : String),
      i < docs.length →
      (∀ j, j < i → ∃ v, unmarshal (docs.getD j "") = .ok v) →
      unmarshal (docs.getD i "") = .error e →
      mergeBytes f cfg unmarshal marshal docs = .error (.marshalErr e i)) := by
  constructor
  · rfl
  · intro docs i e hi hbefore hfail
    have hne : docs.isEmpty = false := by
      cases docs with
      | nil => simp at hi
      | cons a l => rfl
    have hua := unmarshalAll_first_failure unmarshal docs 0 i e hi hbefore hfail
    rw [Nat.zero_add] at hua
    simp [mergeBytes, hne, hua]

/-- C7 witness: zero documents yield empty output without error, and an
unmarshal failure on the second document is wrapped with index 1. -/
theorem c7_witness :
    mergeBytes 5 cfgFlat unmarshalStub marshalStub [] = .ok "" ∧
    mergeBytes 5 cfgFlat unmarshalStub marshalStub ["good", "bad"]
      = .error (.marshalErr "nope" 1) :=
  ⟨(c7_wrapper_contract cfgFlat 5 unmarshalStub marshalStub).1,
   (c7_wrapper_contract cfgFlat 5 unmarshalStub marshalStub).2 ["good", "bad"] 1 "nope"
     (by decide)
     (fun j hj => by
       have h : j = 0 := by omega
       subst h
       exact ⟨.null, rfl⟩)
     rfl⟩

/-- C7 counterexample: a failure of the final marshal call is returned
as-is by the byte wrapper, not wrapped in the structured codec error
carrying a document index. -/
theorem c7_counterexample :
    mergeBytes 20 cfgFlat (fun _ => .ok .null) (fun _ => .error "boom") ["x"]
      = .error (.rawErr "boom") ∧
    isWrappedCodecFailure
        (mergeBytes 20 cfgFlat (fun _ => .ok .null) (fun _ => .error "boom") ["x"])
      = false := by
  exact ⟨rfl, rfl⟩

/-- C8 counterexample: two runs of the same failing merge, differing only
in the overlay map's iteration order (the two overlay representations are
extensionally equal maps), return different errors: the reported path
starts with whichever erroring key was visited first. -/
theorem c8_counterexample :
    valEquiv
        (Value.map [("a", Value.list [Value.map [("id", Value.int 1)]]),
                    ("b", Value.list [Value.map [("id", Value.int 1)]])])
        (Value.map [("b", Value.list [Value.map [("id", Value.int 1)]]),
                    ("a", Value.list [Value.map [("id", Value.int 1)]])])
      = true ∧
    mergeUnstructured 20 cfgDelete
        [Value.map [("a", Value.list [Value.map [("id", Value.map [])]]),
                    ("b", Value.list [Value.map [("id", Value.map [])]])],
         Value.map [("a", Value.list [Value.map [("id", Value.int 1)]]),
                    ("b", Value.list [Value.map [("id", Value.int 1)]])]]
      = .error (.nonComparableKey "map[]" 0 ["a", "0"] 1) ∧
    mergeUnstructured 20 cfgDelete
        [Value.map [("a", Value.list [Value.map [("id", Value.map [])]]),
                    ("b", Value.list [Value.map [("id", Value.map [])]])],
         Value.map [("b", Value.list [Value.map [("id", Value.int 1)]]),
                    ("a", Value.list [Value.map [("id", Value.int 1)]])]]
      = .error (.nonComparableKey "map[]" 0 ["b", "0"] 1) ∧
    MergeErr.nonComparableKey "map[]" 0 ["a", "0"] 1
      ≠ MergeErr.nonComparableKey "map[]" 0 ["b", "0"] 1 := by
  refine ⟨rfl, rfl, rfl, by decide⟩

/-- C8 (amended): a merge run is a pure function of its inputs, and with
no metadata tree the success result of a map merge is independent of the
overlay's map iteration order: permuting the overlay's (necessarily
distinct-keyed) entries yields a run that fails exactly when the
original fails and otherwise produces a key-wise equal result map.  The
identity of a reported error, however, does depend on iteration order,
so the original claim's clause about failing runs is refuted by its
counterexample. -/
theorem c8_success_order_independent (cfg : Cfg) (f di : Nat) (p : Path)
    (hroot : cfg.rootMeta = none)
    (bm ov1 ov2 : List (String × Value))
    (hperm : ov1.Perm ov2) (hnd : (ov1.map Prod.fst).Nodup) :
    okMapsEquiv (okPart (mergeMaps f cfg di p bm ov1))
      (okPart (mergeMaps f cfg di p bm ov2)) := by
  have hmv : ∀ p1 p2 b o, currentMeta p1 = currentMeta p2 →
      okPart (mergeValues f cfg di p1 b o) = okPart (mergeValues f cfg di p2 b o) :=
    fun p1 p2 b o h => mergeValues_stateIrrel cfg hroot f di di p1 p2 b o h
  exact mergeMapsGo_permEquiv (mergeValues f cfg di) cfg hroot hmv hperm hnd
    p p bm bm (mapsEquiv_refl bm)

/-- Witness for `c8_success_order_independent`: a concrete base map
merged with the same two-entry overlay in both iteration orders. -/
theorem c8_witness :
    okMapsEquiv
      (okPart (mergeMaps 3 cfgFlat 1 [] [("a", Value.int 1)]
        [("a", Value.int 2), ("b", Value.int 3)]))
      (okPart (mergeMaps 3 cfgFlat 1 [] [("a", Value.int 1)]
        [("b", Value.int 3), ("a", Value.int 2)])) :=
  c8_success_order_independent cfgFlat 3 1 [] rfl
    [("a", Value.int 1)]
    [("a", Value.int 2), ("b", Value.int 3)]
    [("b", Value.int 3), ("a", Value.int 2)]
    (by decide) (by decide)

/-- C9 (amended): in dedup mode, merging two keyless lists with a
non-empty overlay returns `deduplicateList base overlay`, which is an
order-preserving sublist of the base-then-overlay concatenation in which
every comparable scalar occurs at most once (and at least once if it
occurred at all), while the non-comparable items (nested maps and lists)
are kept exactly as in the concatenation, never deduplicated. -/
theorem c9_dedup_merge (cfg : Cfg) (f di : Nat) (p : Path)
    (base overlay : List Value)
    (hmeta : currentMeta p = none)
    (hmode : cfg.scalarListMode = .dedup)
    (hne : overlay ≠ [])
    (hov : ∀ it ∈ overlay, getPrimaryKey cfg none it = none) :
    mergeSlices f cfg di p base overlay
      = (.ok (deduplicateList base overlay), p) ∧
    (deduplicateList base overlay).Sublist (base ++ overlay) ∧
    (∀ v, isComparable v → (deduplicateList base overlay).count v ≤ 1) ∧
    (∀ v, isComparable v → v ∈ base ++ overlay →
      v ∈ deduplicateList base overlay) ∧
    (deduplicateList base overlay).filter (fun it => !isComparable it)
      = (base ++ overlay).filter (fun it => !isComparable it) := by
  refine ⟨?_, ?_, ?_, ?_, ?_⟩
  · have hovE : overlay.isEmpty = false := by
      cases overlay with
      | nil => exact absurd rfl hne
      | cons a l => rfl
    have hkeys :
        (overlay.any fun it => (getPrimaryKey cfg none it).isSome)
          = false := by
      rw [List.any_eq_false]
      intro it hit
      rw [hov it hit]
      simp
    simp only [mergeSlices, slicesCore, hovE, Bool.false_eq_true, ite_false,
      hkeys, hmeta, Option.bind, hmode]
  · exact dedupGo_sublist (base ++ overlay) []
  · intro v hv
    exact dedupGo_count_le_one (base ++ overlay) [] v hv
  · intro v hv hmem
    exact dedupGo_mem (base ++ overlay) [] v hv hmem (by simp)
  · exact dedupGo_filter_noncomparable (base ++ overlay) []

/-- C9 witness: the spec's own example, base ["a","b","c"] with overlay
["b","d","a"] under dedup mode, merges to ["a","b","c","d"]. -/
theorem c9_witness :
    mergeSlices 5 cfgDedupMode 0 []
        [Value.str "a", Value.str "b", Value.str "c"]
        [Value.str "b", Value.str "d", Value.str "a"]
      = (.ok [Value.str "a", Value.str "b", Value.str "c", Value.str "d"], []) :=
  (c9_dedup_merge cfgDedupMode 5 0 []
    [Value.str "a", Value.str "b", Value.str "c"]
    [Value.str "b", Value.str "d", Value.str "a"]
    rfl rfl (by decide) (by decide)).1

/-- C9 counterexample: with an empty overlay, the list merge returns the
base unchanged before the scalar-mode dispatch, so a duplicated scalar in
the base survives dedup mode, contradicting "each comparable scalar
emitted at most once". -/
theorem c9_counterexample :
    (mergeSlices 20 cfgDedupMode 1 [] [Value.str "a", Value.str "a"] []).1
      = .ok [Value.str "a", Value.str "a"] ∧
    ¬ [Value.str "a", Value.str "a"].count (Value.str "a") ≤ 1 := by
  exact ⟨rfl, by decide⟩

end Keymerge
